import Mathlib

/-!
Verification of the dominator analysis in `libyul/backends/evm/Dominator.h`
(Lengauer–Tarjan dominator algorithm, simple variant with the
Georgiadis–Tarjan–Werneck bucket reordering).

The C++ class `Dominator<Vertex, ForEachSuccessor>` is embedded shallowly:

* vertices are `Nat`; `ForEachSuccessor` is a function `Nat → List Nat`;
* every `std::vector` is a total function `Nat → _` updated pointwise
  (`upd`); the C++ sentinel `std::numeric_limits<size_t>::max()` is the
  literal `undefIdx = 2^64 - 1`;
* `std::map<Vertex, size_t>` is `Nat → Option Nat` and its `operator[]`
  (which value-initializes a missing key to `0`) is `mapGetOrInsert`;
* `std::set` of vertices used for `visited` is a characteristic function,
  and `std::set<size_t>` used for `predecessors` is an ordered
  duplicate-free list (`setInsert`), since step 2 iterates it in
  ascending order;
* the recursive dfs and `compressPath` take an explicit fuel argument.
  The dfs fuel `n + 1` bounds the nesting depth (each nested level visits
  a fresh vertex); the `compressPath` fuel `n` suffices because `ancestor`
  chains are strictly decreasing.  Fuel exhaustion returns the state
  unchanged and is unreachable on inputs whose reachable-vertex count is
  the constructed `numVertices`;
* the dfs successor check `semi[dfIdx] == max` reads `semi` at the running
  counter `dfIdx`, which the source performs even when `dfIdx` equals
  `numVertices` (an out-of-range vector read).  The embedding makes that
  read `Option`-valued: in range it reads the slot, out of range it
  records the event in the `oob` flag and skips the recursion (at that
  point every slot has been assigned, so the vertex was already visited
  and the skipped recursion would have returned immediately).
-/

/-- The sentinel `std::numeric_limits<size_t>::max()` used for
"undefined" entries of `semi`, `parent`, `ancestor` and `idom`. -/
def undefIdx : Nat := 18446744073709551615

/-- Pointwise update of a `Nat`-indexed table: models writing one vector
slot or one map cell. -/
def upd {α : Type} (f : Nat → α) (k : Nat) (x : α) : Nat → α :=
  fun j => if j = k then x else f j

/-- Ordered duplicate-free insertion: models `std::set<size_t>::insert`,
keeping the list sorted so that iteration happens in ascending order as
for the C++ container. -/
def setInsert (x : Nat) : List Nat → List Nat
  | [] => [x]
  | y :: ys => if x < y then x :: y :: ys else if x = y then y :: ys else y :: setInsert x ys

/-- `std::map<Vertex, size_t>::operator[]`: returns the mapped value of
`k`, inserting a value-initialized (`0`) entry when `k` is absent. -/
def mapGetOrInsert (m : Nat → Option Nat) (k : Nat) : (Nat → Option Nat) × Nat :=
  match m k with
  | some i => (m, i)
  | none => (upd m k (some 0), 0)

/-- The state mutated by `Dominator::lengauerTarjanDominator`: the member
fields `m_vertex` / `m_vertexIndex` plus the locals of the algorithm
(`semi`, `parent`, `ancestor`, `label`, `visited`, `predecessors`,
`bucket`, `idom`, `dfIdx`).  `n` and `succ` are the constructor
parameters `_numVertices` and `ForEachSuccessor`; `oob` records whether
the dfs successor check ever read `semi` out of range. -/
structure LTState where
  n : Nat
  succ : Nat → List Nat
  vertex : Nat → Nat
  vertexIndex : Nat → Option Nat
  semi : Nat → Nat
  parent : Nat → Nat
  ancestor : Nat → Nat
  label : Nat → Nat
  visited : Nat → Bool
  preds : Nat → List Nat
  bucket : Nat → List Nat
  idom : Nat → Nat
  dfIdx : Nat
  oob : Bool

/-- The state at the start of `lengauerTarjanDominator`: `m_vertex` is
value-initialized (`0` entries), the map is empty, `semi`, `parent`,
`ancestor` and `idom` are filled with the sentinel, `label` with `0`. -/
def initState (n : Nat) (succ : Nat → List Nat) : LTState :=
  { n := n
    succ := succ
    vertex := fun _ => 0
    vertexIndex := fun _ => none
    semi := fun _ => undefIdx
    parent := fun _ => undefIdx
    ancestor := fun _ => undefIdx
    label := fun _ => 0
    visited := fun _ => false
    preds := fun _ => []
    bucket := fun _ => []
    idom := fun _ => undefIdx
    dfIdx := 0
    oob := false }

/-- The first-visit block of the dfs lambda: record `_v` at the next
index (`m_vertex[dfIdx] = _v; m_vertexIndex[_v] = dfIdx`), seed
`semi[dfIdx] = label[dfIdx] = dfIdx`, mark it visited and increment
`dfIdx`. -/
def dfsAssign (v : Nat) (st : LTState) : LTState :=
  { st with
    visited := upd st.visited v true
    vertex := upd st.vertex st.dfIdx v
    vertexIndex := upd st.vertexIndex v (some st.dfIdx)
    semi := upd st.semi st.dfIdx st.dfIdx
    label := upd st.label st.dfIdx st.dfIdx
    dfIdx := st.dfIdx + 1 }

/-- The statement `parent[dfIdx] = m_vertexIndex[_v]` executed before the
dfs recurses into a successor (`operator[]` on the map, `_v` is always
present here). -/
def parentWrite (v : Nat) (st : LTState) : LTState :=
  let rv := mapGetOrInsert st.vertexIndex v
  { st with vertexIndex := rv.1, parent := upd st.parent st.dfIdx rv.2 }

/-- The statement
`predecessors[m_vertexIndex[w]].insert(m_vertexIndex[_v])` executed for
every enumerated successor `w` of `_v` (both lookups are `operator[]` and
may insert a `0` entry for an absent key). -/
def predInsert (w v : Nat) (st : LTState) : LTState :=
  let rw := mapGetOrInsert st.vertexIndex w
  let rv := mapGetOrInsert rw.1 v
  { st with
    vertexIndex := rv.1
    preds := upd st.preds rw.2 (setInsert rv.2 (st.preds rw.2)) }

/-- The body of `ForEachSuccessor{}(_v, ...)` inside the dfs: for each
successor `w`, the source tests `semi[dfIdx] == max` (reading the slot of
the *next* index, out of range once `dfIdx == numVertices`), on success
writes `parent[dfIdx] = m_vertexIndex[_v]` and recurses into `w` (the
recursive dfs call is passed as `go`), and in every case inserts
`m_vertexIndex[_v]` into `predecessors[m_vertexIndex[w]]`. -/
def dfsSuccs (go : Nat → LTState → LTState) (v : Nat) : List Nat → LTState → LTState
  | [], st => st
  | w :: ws, st =>
    let st1 :=
      if st.dfIdx < st.n then
        if st.semi st.dfIdx = undefIdx then go w (parentWrite v st)
        else st
      else { st with oob := true }
    dfsSuccs go v ws (predInsert w v st1)

/-- The recursive dfs lambda of `lengauerTarjanDominator` (step 1): on a
first visit it assigns the next index to `_v` and enumerates the
successors. -/
def dfsVisit : Nat → Nat → LTState → LTState
  | 0, _, st => st
  | fuel + 1, v, st =>
    if st.visited v then st
    else dfsSuccs (dfsVisit fuel) v (st.succ v) (dfsAssign v st)

/-- The label propagation of `compressPath`:
`if (semi[label[u]] < semi[label[v]]) label[v] = label[u]`. -/
def labelUpdate (u v : Nat) (st : LTState) : LTState :=
  if st.semi (st.label u) < st.semi (st.label v) then
    { st with label := upd st.label v (st.label u) }
  else st

/-- The ancestor shortcut of `compressPath`: `ancestor[v] = ancestor[u]`. -/
def ancestorShort (u v : Nat) (st : LTState) : LTState :=
  { st with ancestor := upd st.ancestor v (st.ancestor u) }

/-- `Dominator::compressPath`: path compression along the `ancestor`
chain, propagating the label of minimum `semi`.  The fuel bounds the
recursion depth; `ancestor` chains strictly decrease, so fuel `n` is
enough at every call site. -/
def compressPath : Nat → LTState → Nat → LTState
  | 0, st, _ => st
  | fuel + 1, st, v =>
    let u := st.ancestor v
    if st.ancestor u ≠ undefIdx then
      ancestorShort u v (labelUpdate u v (compressPath fuel st u))
    else st

/-- The `eval` lambda: if `v` has a defined `ancestor`, compress the path
and return `label[v]`, otherwise return `v` itself. -/
def evalPC (st : LTState) (v : Nat) : LTState × Nat :=
  if st.ancestor v ≠ undefIdx then
    let st1 := compressPath st.n st v
    (st1, st1.label v)
  else (st, v)

/-- One element of the step-3 bucket traversal at loop index `w`:
`u = eval(v); idom[v] = (semi[u] < semi[v]) ? u : w`. -/
def bucketStep (w : Nat) (st : LTState) (v : Nat) : LTState :=
  let r := evalPC st v
  { r.1 with idom := upd r.1.idom v (if r.1.semi r.2 < r.1.semi v then r.2 else w) }

/-- One element of the step-2 predecessor traversal at loop index `w`:
`u = eval(v); if (semi[u] < semi[w]) semi[w] = semi[u]`. -/
def semiStep (w : Nat) (st : LTState) (v : Nat) : LTState :=
  let r := evalPC st v
  if r.1.semi r.2 < r.1.semi w then { r.1 with semi := upd r.1.semi w (r.1.semi r.2) }
  else r.1

/-- The statement `bucket[semi[w]].emplace_back(w)` at the end of a loop
iteration. -/
def ltAppend (w : Nat) (st : LTState) : LTState :=
  { st with bucket := upd st.bucket (st.semi w) (st.bucket (st.semi w) ++ [w]) }

/-- The `link(parent[w], w)` call at the end of a loop iteration:
`ancestor[w] = parent[w]`. -/
def ltLink (w : Nat) (st : LTState) : LTState :=
  { st with ancestor := upd st.ancestor w (st.parent w) }

/-- One iteration of the main reverse loop of `lengauerTarjanDominator`
for the slot `i` of `m_vertex`: resolve `w = m_vertexIndex[m_vertex[i]]`,
process `bucket[w]` (step 3, moved first), run step 2 over
`predecessors[w]`, append `w` to `bucket[semi[w]]` and
`link(parent[w], w)`. -/
def ltIterSlot (st : LTState) (i : Nat) : LTState :=
  let mw := mapGetOrInsert st.vertexIndex (st.vertex i)
  let st0 := { st with vertexIndex := mw.1 }
  let w := mw.2
  let st1 := (st0.bucket w).foldl (bucketStep w) st0
  let st2 := (st1.preds w).foldl (semiStep w) st1
  ltLink w (ltAppend w st2)

/-- The main reverse loop: iterates the slots of `m_vertex` from
`rbegin()` to `rend()`, i.e. over indices `n-1, n-2, ..., 1, 0`. -/
def ltLoop (st : LTState) : LTState :=
  ((List.range st.n).reverse).foldl ltIterSlot st

/-- Modelled from the spec's words, for comparison with `ltLoop`: the
semi-dominator pass as the spec describes it, processing indices from
`n-1` down to `1` with index `0` (the entry) skipped.  The source's loop
(`ltLoop`) does not skip index `0`. -/
def ltLoopSkip0 (st : LTState) : LTState :=
  (((List.range st.n).drop 1).reverse).foldl ltIterSlot st

/-- One iteration of step 4 for slot `i`: resolve `w`, and if
`idom[w] ≠ semi[w]` set `idom[w] = idom[idom[w]]`. -/
def step4Iter (st : LTState) (i : Nat) : LTState :=
  let mw := mapGetOrInsert st.vertexIndex (st.vertex i)
  let st0 := { st with vertexIndex := mw.1 }
  let w := mw.2
  if st0.idom w ≠ st0.semi w then { st0 with idom := upd st0.idom w (st0.idom (st0.idom w)) }
  else st0

/-- Step 4 of `lengauerTarjanDominator`: `idom[0] = 0`, then walk the
slots from `begin() + 1` in increasing order applying the fix-up. -/
def step4 (st : LTState) : LTState :=
  ((List.range st.n).drop 1).foldl step4Iter { st with idom := upd st.idom 0 0 }

/-- The dfs phase of `lengauerTarjanDominator`: run the recursive dfs
from the entry on the initial state (fuel `n + 1` bounds the nesting
depth, see the module docstring). -/
def dfsPhase (entry n : Nat) (succ : Nat → List Nat) : LTState :=
  dfsVisit (n + 1) entry (initState n succ)

/-- `Dominator::lengauerTarjanDominator`: dfs numbering, the reverse
semi-dominator/bucket loop, then the step-4 fix-up. -/
def lengauerTarjan (entry n : Nat) (succ : Nat → List Nat) : LTState :=
  step4 (ltLoop (dfsPhase entry n succ))

/-- The members of a constructed `Dominator` object: `m_vertex`,
`m_vertexIndex`, `m_immediateDominator` and `m_dominatorTree` (a vertex
with no children has the empty list, matching a map without that key). -/
structure Dom where
  n : Nat
  vertex : Nat → Nat
  vertexIndex : Nat → Option Nat
  idom : Nat → Nat
  tree : Nat → List Nat

/-- `Dominator::buildDominatorTree`: for each `i` from `1` to `n - 1`
append `i` to `tree[idom[i]]`. -/
def buildDominatorTree (st : LTState) : Nat → List Nat :=
  ((List.range st.n).drop 1).foldl
    (fun t i => upd t (st.idom i) (t (st.idom i) ++ [i])) (fun _ => [])

/-- The `Dominator` constructor: run `lengauerTarjanDominator` and build
the dominator tree. -/
def mkDominator (entry n : Nat) (succ : Nat → List Nat) : Dom :=
  let st := lengauerTarjan entry n succ
  { n := st.n
    vertex := st.vertex
    vertexIndex := st.vertexIndex
    idom := st.idom
    tree := buildDominatorTree st }

/-- `m_vertexIndex[_v]` as used by the query methods of the class:
`operator[]` on the member map, possibly inserting a `0` entry. -/
def domGetOrInsert (d : Dom) (v : Nat) : Dom × Nat :=
  match d.vertexIndex v with
  | some i => (d, i)
  | none => ({ d with vertexIndex := upd d.vertexIndex v (some 0) }, 0)

/-- The `while (idomIdx != 0)` walk of `Dominator::dominates`, returning
`idomIdx == aIdx` when the entry is reached.  The chain strictly
decreases on constructed states, so fuel `n + 1` is enough. -/
def domWalk (idomA : Nat → Nat) (aIdx : Nat) : Nat → Nat → Bool
  | fuel, cur =>
    if cur = 0 then decide (cur = aIdx)
    else
      match fuel with
      | 0 => decide (cur = aIdx)
      | f + 1 => if cur = aIdx then true else domWalk idomA aIdx f (idomA cur)

/-- `Dominator::dominates(_a, _b)`: resolve both indices through
`m_vertexIndex` (`operator[]`, hence a possible insertion), answer `true`
on equal indices, otherwise walk the idom chain of `_b`. -/
def dominates (d : Dom) (a b : Nat) : Bool × Dom :=
  let ra := domGetOrInsert d a
  let rb := domGetOrInsert ra.1 b
  if ra.2 = rb.2 then (true, rb.1)
  else (domWalk rb.1.idom ra.2 (rb.1.n + 1) (rb.1.idom rb.2), rb.1)

/-- The `while (idomIdx != 0)` loop of `Dominator::dominatorsOf`:
appends `m_vertex[idomIdx]` and steps to `m_immediateDominator[idomIdx]`. -/
def domsWalk (d : Dom) : Nat → Nat → List Nat → List Nat
  | fuel, cur, acc =>
    if cur = 0 then acc
    else
      match fuel with
      | 0 => acc
      | f + 1 => domsWalk d f (d.idom cur) (acc ++ [d.vertex cur])

/-- `Dominator::dominatorsOf(_v)`: start from `{m_vertex[0]}` (the
entry), resolve `idomIdx = m_immediateDominator[m_vertexIndex[_v]]`,
return early when it is `0`, otherwise run the walk.  (`solAssert
(!m_vertex.empty())` always holds for a constructed object since the
constructor asserts `numVertices > 0`.) -/
def dominatorsOf (d : Dom) (v : Nat) : List Nat × Dom :=
  let rv := domGetOrInsert d v
  let doms := [rv.1.vertex 0]
  let j := rv.1.idom rv.2
  if j = 0 then (doms, rv.1)
  else (domsWalk rv.1 (rv.1.n + 1) j doms, rv.1)

/-- The idom chain of the index `cur`, excluding the entry index `0`:
`[cur, idom cur, idom (idom cur), ...]` stopping before `0`.  Used to
state what `dominatorsOf` actually returns (the entry followed by this
chain, unreversed). -/
def idomChain (idomA : Nat → Nat) : Nat → Nat → List Nat
  | _, 0 => []
  | 0, _ => []
  | f + 1, cur => cur :: idomChain idomA f (idomA cur)

/-- A read-only query of the constructed analyzer, for stating the
frame property over call sequences. -/
inductive DomQuery : Type
  | dom (a b : Nat) : DomQuery
  | doms (v : Nat) : DomQuery

/-- Run a sequence of queries on the analyzer, threading the object
state (which `operator[]` can mutate) through the calls. -/
def runQueries (d : Dom) : List DomQuery → Dom
  | [] => d
  | DomQuery.dom a b :: qs => runQueries (dominates d a b).2 qs
  | DomQuery.doms v :: qs => runQueries (dominatorsOf d v).2 qs

/-- All argument vertices of a query are present in `m_vertexIndex`
(i.e. they are reachable vertices of the analyzed graph). -/
def queryKnown (d : Dom) : DomQuery → Bool
  | DomQuery.dom a b => (d.vertexIndex a).isSome && (d.vertexIndex b).isSome
  | DomQuery.doms v => (d.vertexIndex v).isSome

/-- Successor map of the linear chain `A→B, B→C, C→D` with
`A, B, C, D = 0, 1, 2, 3`. -/
def chainSucc : Nat → List Nat :=
  fun v => if v = 0 then [1] else if v = 1 then [2] else if v = 2 then [3] else []

/-- Successor map of the diamond `A→B, A→C, B→D, C→D` with
`A, B, C, D = 0, 1, 2, 3`. -/
def diamondSucc : Nat → List Nat :=
  fun v => if v = 0 then [1, 2] else if v = 1 then [3] else if v = 2 then [3] else []

/-- The analyzer constructed on the linear chain. -/
def chainDom : Dom := mkDominator 0 4 chainSucc

/-- The analyzer constructed on the diamond. -/
def diamondDom : Dom := mkDominator 0 4 diamondSucc

/-- Invariant of the dfs state.  `P` lists the indices whose
`parent ∈ preds` edge record is still pending: when the dfs recurses into
a successor, the discoverer's `predecessors` insertion for the freshly
assigned index happens only after the recursive call returns. -/
structure DfsInv (s : LTState) (P : List Nat) : Prop where
  semiLt : ∀ j, j < s.dfIdx → s.semi j = j
  labelLt : ∀ j, j < s.dfIdx → s.label j = j
  labelGe : ∀ j, s.dfIdx ≤ j → s.label j = 0
  semiGe : ∀ j, s.dfIdx ≤ j → s.semi j = undefIdx
  parLt : ∀ j, 1 ≤ j → j < s.dfIdx → s.parent j < j
  parZero : s.parent 0 = undefIdx
  parPred : ∀ j, 1 ≤ j → j < s.dfIdx → j ∉ P → s.parent j ∈ s.preds j
  mapLt : ∀ v j, s.vertexIndex v = some j → j < s.dfIdx
  mapVtx : ∀ j, j < s.dfIdx → s.vertexIndex (s.vertex j) = some j
  visVtx : ∀ j, j < s.dfIdx → s.visited (s.vertex j) = true
  predLt : ∀ j p, p ∈ s.preds j → p < s.dfIdx
  visMap : ∀ v, s.visited v = true → (s.vertexIndex v).isSome = true

/-- Monotonicity and frame facts relating a dfs input state to the
corresponding output state. -/
structure DfsFrame (s s' : LTState) : Prop where
  mono : s.dfIdx ≤ s'.dfIdx
  vtx : ∀ j, j < s.dfIdx → s'.vertex j = s.vertex j
  sem : ∀ j, j < s.dfIdx → s'.semi j = s.semi j
  lab : ∀ j, j < s.dfIdx → s'.label j = s.label j
  par : ∀ j, j < s.dfIdx → s'.parent j = s.parent j
  vis : ∀ x, s.visited x = true → s'.visited x = true
  vmap : ∀ x, s.visited x = true → s'.vertexIndex x = s.vertexIndex x
  prd : ∀ j p, p ∈ s.preds j → p ∈ s'.preds j
  anc : s'.ancestor = s.ancestor
  bkt : s'.bucket = s.bucket
  idm : s'.idom = s.idom
  nn : s'.n = s.n
  sc : s'.succ = s.succ

/-- Specification of one recursive dfs call `go w s`: it preserves the
invariant (adding the caller's pending slot `s.dfIdx` to the pending
list), satisfies the frame conditions, preserves `parent` up to and
including slot `s.dfIdx`, is the identity on an already visited vertex,
and on an unvisited vertex either assigns it the index `s.dfIdx` or does
nothing (fuel exhaustion). -/
def DfsCallSpec (go : Nat → LTState → LTState) : Prop :=
  ∀ w s P, DfsInv s P → (s.dfIdx = 0 ∨ s.parent s.dfIdx < s.dfIdx) →
    DfsInv (go w s) (s.dfIdx :: P) ∧
    DfsFrame s (go w s) ∧
    (∀ j, j ≤ s.dfIdx → (go w s).parent j = s.parent j) ∧
    (s.visited w = true → go w s = s) ∧
    (s.visited w = false →
      ((go w s).visited w = true ∧ (go w s).vertexIndex w = some s.dfIdx) ∨ go w s = s)

/-- The facts about the state delivered by a completed dfs phase
(`dfIdx = n`, i.e. `numVertices` equals the number of vertices the dfs
reached), consumed by the analysis of the main reverse loop. -/
structure PostDfs (n : Nat) (s : LTState) : Prop where
  hn : s.n = n
  hdf : s.dfIdx = n
  semiId : ∀ j, j < n → s.semi j = j
  labelId : ∀ j, j < n → s.label j = j
  labelGe : ∀ j, n ≤ j → s.label j = 0
  parLt : ∀ j, 1 ≤ j → j < n → s.parent j < j
  parZero : s.parent 0 = undefIdx
  parPred : ∀ j, 1 ≤ j → j < n → s.parent j ∈ s.preds j
  mapLt : ∀ v j, s.vertexIndex v = some j → j < n
  mapVtx : ∀ j, j < n → s.vertexIndex (s.vertex j) = some j
  predLt : ∀ j p, p ∈ s.preds j → p < n
  ancU : ∀ j, s.ancestor j = undefIdx
  bktE : ∀ j, s.bucket j = []
  idomU : ∀ j, s.idom j = undefIdx

/-- Frame of `compressPath` and `eval`: every component except `label`
and `ancestor` is untouched. -/
structure CLFrame (s s' : LTState) : Prop where
  nn : s'.n = s.n
  sc : s'.succ = s.succ
  vtx : s'.vertex = s.vertex
  vmap : s'.vertexIndex = s.vertexIndex
  sem : s'.semi = s.semi
  par : s'.parent = s.parent
  vis : s'.visited = s.visited
  prd : s'.preds = s.preds
  bkt : s'.bucket = s.bucket
  idm : s'.idom = s.idom
  dfx : s'.dfIdx = s.dfIdx
  oo : s'.oob = s.oob

/-- Frame shared by the per-element steps of the main loop's bucket and
predecessor traversals: the fields none of them touch. -/
structure QFrame (s s' : LTState) : Prop where
  nn : s'.n = s.n
  vtx : s'.vertex = s.vertex
  vmap : s'.vertexIndex = s.vertexIndex
  par : s'.parent = s.parent
  prd : s'.preds = s.preds
  bkt : s'.bucket = s.bucket

/-- The pieces of the loop invariant that `compressPath` and `eval`
interact with, relative to the current loop index `w` (indices `> w`
have been processed, indices `≤ w` have not). -/
structure CPre (w : Nat) (s : LTState) : Prop where
  labelLe : ∀ j, s.label j ≤ j
  ancLow : ∀ j, j ≤ w → s.ancestor j = undefIdx
  ancLt : ∀ j, s.ancestor j = undefIdx ∨ s.ancestor j < j

/-- The invariant of the main reverse loop, stated for the state `s`
about to process loop index `w` (all indices in `(w, n)` already
processed).  `base` is the state produced by the dfs phase. -/
structure LoopInv (base : LTState) (w : Nat) (s : LTState) : Prop where
  frameV : s.vertex = base.vertex
  frameM : s.vertexIndex = base.vertexIndex
  frameP : s.parent = base.parent
  framePr : s.preds = base.preds
  frameN : s.n = base.n
  semiLow : ∀ j, j ≤ w → s.semi j = j
  semiHi : ∀ j, w < j → j < base.n → s.semi j < j
  cpre : CPre w s
  bkt : ∀ j x, x ∈ s.bucket j → 1 ≤ x ∧ x < base.n ∧ w < x ∧ s.semi x = j
  idm : ∀ x, 1 ≤ x → x < base.n → w < x →
    s.idom x < x ∨ (s.semi x ≤ w ∧ x ∈ s.bucket (s.semi x))

/-- What holds after the reverse loop has run all iterations down to and
including index `0`. -/
structure PostLoop (base : LTState) (s : LTState) : Prop where
  frameV : s.vertex = base.vertex
  frameM : s.vertexIndex = base.vertexIndex
  frameN : s.n = base.n
  idm : ∀ x, 1 ≤ x → x < base.n → s.idom x < x

theorem upd_self {α : Type} (f : Nat → α) (k : Nat) (x : α) : upd f k x k = x := by
  simp [upd]

theorem upd_other {α : Type} (f : Nat → α) (k j : Nat) (x : α) (h : j ≠ k) :
    upd f k x j = f j := by
  simp [upd, h]

theorem mem_setInsert (x p : Nat) : ∀ l : List Nat, p ∈ setInsert x l ↔ p = x ∨ p ∈ l := by
  intro l
  induction l with
  | nil => simp [setInsert]
  | cons y ys ih =>
    by_cases h1 : x < y
    · simp [setInsert, h1]
    · by_cases h2 : x = y
      · subst h2
        have hs : setInsert x (x :: ys) = x :: ys := by simp [setInsert]
        rw [hs, List.mem_cons]
        tauto
      · simp only [setInsert, if_neg h1, if_neg h2, List.mem_cons, ih]
        tauto

theorem mapGetOrInsert_some (m : Nat → Option Nat) (k i : Nat) (h : m k = some i) :
    mapGetOrInsert m k = (m, i) := by
  simp [mapGetOrInsert, h]

theorem mapGetOrInsert_none (m : Nat → Option Nat) (k : Nat) (h : m k = none) :
    mapGetOrInsert m k = (upd m k (some 0), 0) := by
  simp [mapGetOrInsert, h]

/-- Claim C7: on the diamond graph with entry `A` and edges
`A→B, A→C, B→D, C→D` (vertices `A,B,C,D = 0,1,2,3`; dfs indices
`A,B,D,C ↦ 0,1,2,3`), the analysis yields `idom(B)=A`, `idom(C)=A`,
`idom(D)=A`, `dominates(B, D) = false` and `dominates(A, D) = true`. -/
theorem claim_C7 :
    diamondDom.vertex 0 = 0 ∧
    diamondDom.vertexIndex 1 = some 1 ∧ diamondDom.idom 1 = 0 ∧
    diamondDom.vertexIndex 2 = some 3 ∧ diamondDom.idom 3 = 0 ∧
    diamondDom.vertexIndex 3 = some 2 ∧ diamondDom.idom 2 = 0 ∧
    (dominates diamondDom 1 3).1 = false ∧
    (dominates diamondDom 0 3).1 = true := by
  decide

/-- Claim C8: on the linear chain with entry `A` and edges
`A→B, B→C, C→D` (vertices `A,B,C,D = 0,1,2,3`, dfs indices identical),
the immediate-dominator array is `[0, 0, 1, 2]`, i.e. `idom(A)=A`
(sentinel), `idom(B)=A`, `idom(C)=B`, `idom(D)=C`. -/
theorem claim_C8 :
    (List.range 4).map chainDom.vertexIndex = [some 0, some 1, some 2, some 3] ∧
    (List.range 4).map chainDom.vertex = [0, 1, 2, 3] ∧
    (List.range 4).map chainDom.idom = [0, 0, 1, 2] := by
  decide

/-- Claim C1 (the code, evaluated at the failing input): querying the
chain analyzer with vertex `9`, which is not in `vertexIndex`, is not
rejected: `operator[]` silently inserts `9 ↦ 0` and both `dominates` and
`dominatorsOf` return ordinary answers (`true`, resp. `[entry]`) instead
of signalling an error distinct from a negative answer. -/
theorem claim_C1 :
    chainDom.vertexIndex 9 = none ∧
    (dominates chainDom 9 1).1 = true ∧
    (dominates chainDom 9 1).2.vertexIndex 9 = some 0 ∧
    (dominatorsOf chainDom 9).1 = [0] ∧
    (dominatorsOf chainDom 9).2.vertexIndex 9 = some 0 := by
  decide

/-- Claim C2 (the code, evaluated at the failing input): on the diamond,
where `numVertices = 4` equals the number of reachable vertices, the dfs
successor check does read `semi[dfIdx]` with `dfIdx = numVertices` (when
vertex `C` enumerates its successor `D` after all four vertices have
been assigned): the out-of-range branch of the embedded Option-valued
indexing is reached (`oob = true`), contradicting the claim that it is
unreachable. -/
theorem claim_C2 :
    (dfsPhase 0 4 diamondSucc).dfIdx = 4 ∧
    (dfsPhase 0 4 diamondSucc).oob = true := by
  decide

/-- Claim C3, counterexample: on the chain, vertex `3` (= `D`, dfs index
`3`) has idom chain `2, 1` and the reversed chain with the entry first is
`[0, 1, 2]` (`[A, B, C]`), but `dominatorsOf` returns `[0, 2, 1]`
(`[A, C, B]`): the entry comes first and then the immediate dominator,
i.e. decreasing proximity to `v`, not increasing. -/
theorem claim_C3_cex :
    chainDom.vertexIndex 3 = some 3 ∧
    (List.range 4).map chainDom.vertex = [0, 1, 2, 3] ∧
    (List.range 4).map chainDom.idom = [0, 0, 1, 2] ∧
    (dominatorsOf chainDom 3).1 = [0, 2, 1] ∧
    (dominatorsOf chainDom 3).1 ≠ [0, 1, 2] := by
  decide

/-- Claim C6, counterexample: `dominatorsOf(entry)` returns `[entry]`,
so the returned sequence does contain the entry (= the argument vertex
itself), contrary to the claim that `v` is never included and that
`dominatorsOf(entry)` does not contain the entry. -/
theorem claim_C6_cex :
    chainDom.vertex 0 = 0 ∧
    (dominatorsOf chainDom 0).1 = [0] ∧
    0 ∈ (dominatorsOf chainDom 0).1 := by
  decide

/-- Claim C5, counterexample: a `dominates` call whose first argument is
the unknown vertex `9` mutates the analyzer (`operator[]` inserts
`9 ↦ 0` into `m_vertexIndex`), so the state is not unchanged under
queries with arbitrary argument vertices. -/
theorem claim_C5_cex : (dominates chainDom 9 1).2 ≠ chainDom := by
  intro h
  have h9 : (dominates chainDom 9 1).2.vertexIndex 9 = chainDom.vertexIndex 9 := by rw [h]
  revert h9
  decide

theorem domGetOrInsert_eq (d : Dom) (v i : Nat) (h : d.vertexIndex v = some i) :
    domGetOrInsert d v = (d, i) := by
  simp [domGetOrInsert, h]

theorem domsWalk_eq_idomChain (d : Dom) :
    ∀ fuel cur acc, domsWalk d fuel cur acc = acc ++ (idomChain d.idom fuel cur).map d.vertex := by
  intro fuel
  induction fuel with
  | zero =>
    intro cur acc
    cases cur <;> simp [domsWalk, idomChain]
  | succ f ih =>
    intro cur acc
    cases cur with
    | zero => simp [domsWalk, idomChain]
    | succ c =>
      rw [domsWalk, ih]
      simp [idomChain]

/-- What `dominatorsOf` computes on a known vertex: the entry followed by
the unreversed idom chain starting at the immediate dominator of the
vertex's index. -/
theorem dominatorsOf_chain (d : Dom) (v i : Nat) (hv : d.vertexIndex v = some i) :
    (dominatorsOf d v).1 = d.vertex 0 :: (idomChain d.idom (d.n + 1) (d.idom i)).map d.vertex := by
  unfold dominatorsOf
  rw [domGetOrInsert_eq d v i hv]
  by_cases h0 : d.idom i = 0
  · simp [h0, idomChain]
  · simp only [h0, if_neg h0]
    rw [domsWalk_eq_idomChain]
    simp

/-- Claim C3 (amended): for every reachable vertex `v`, the sequence
returned by `dominatorsOf(v)` lists the entry first and then the strict
dominators of `v` in order of *decreasing* proximity to `v`: the
immediate dominator of `v` comes directly after the entry; the sequence
equals the entry prepended to the *unreversed* idom chain walked from
`index(v)`.  (The claim as stated — increasing proximity, immediate
dominator last, reversed chain — is refuted by `claim_C3_cex`.) -/
theorem claim_C3 (d : Dom) (v i : Nat) (hv : d.vertexIndex v = some i) :
    (dominatorsOf d v).1 = d.vertex 0 :: (idomChain d.idom (d.n + 1) (d.idom i)).map d.vertex :=
  dominatorsOf_chain d v i hv

/-- Witness for `claim_C3` on the chain analyzer at vertex `3`. -/
theorem claim_C3_witness :
    chainDom.vertexIndex 3 = some 3 ∧
    (dominatorsOf chainDom 3).1 =
      chainDom.vertex 0 ::
        (idomChain chainDom.idom (chainDom.n + 1) (chainDom.idom 3)).map chainDom.vertex :=
  ⟨by decide, claim_C3 chainDom 3 3 (by decide)⟩

/-- Claim C4 (amended): the semi-dominator pass processes vertices in
decreasing dfs order from `n-1` down to `0`: index `0` is *not* skipped;
the source's loop equals the spec's loop (`n-1` down to `1`) followed by
one full iteration (bucket step, semi-dominator step, bucket append,
link) for index `0`.  (The claim as stated is refuted by
`claim_C4_cex`.) -/
theorem claim_C4 (st : LTState) (h : 1 ≤ st.n) :
    ltLoop st = ltIterSlot (ltLoopSkip0 st) 0 := by
  unfold ltLoop ltLoopSkip0
  obtain ⟨m, hm⟩ : ∃ m, st.n = m + 1 := ⟨st.n - 1, by omega⟩
  rw [hm, List.range_succ_eq_map]
  simp [List.foldl_append]

/-- Witness for `claim_C4` on the dfs output of the chain graph. -/
theorem claim_C4_witness :
    1 ≤ (dfsPhase 0 4 chainSucc).n ∧
    ltLoop (dfsPhase 0 4 chainSucc) = ltIterSlot (ltLoopSkip0 (dfsPhase 0 4 chainSucc)) 0 :=
  ⟨by decide, claim_C4 _ (by decide)⟩

/-- Claim C4, counterexample: on the diamond's dfs output, the loop as
the claim describes it (skipping index `0`) leaves `idom[1]` at the
undefined sentinel, whereas the source's loop runs the iteration for
index `0` — whose bucket step assigns `idom[1] = 0` and whose bucket
append puts `0` into `bucket[0]` — so the two loops differ. -/
theorem claim_C4_cex :
    (ltLoopSkip0 (dfsPhase 0 4 diamondSucc)).idom 1 = undefIdx ∧
    (ltLoop (dfsPhase 0 4 diamondSucc)).idom 1 = 0 ∧
    0 ∈ (ltLoop (dfsPhase 0 4 diamondSucc)).bucket 0 ∧
    ltLoop (dfsPhase 0 4 diamondSucc) ≠ ltLoopSkip0 (dfsPhase 0 4 diamondSucc) := by
  refine ⟨by decide, by decide, by decide, ?_⟩
  intro h
  have hne : (ltLoop (dfsPhase 0 4 diamondSucc)).idom 1 =
      (ltLoopSkip0 (dfsPhase 0 4 diamondSucc)).idom 1 := by rw [h]
  revert hne
  decide

theorem dominates_frame (d : Dom) (a b : Nat)
    (ha : (d.vertexIndex a).isSome = true) (hb : (d.vertexIndex b).isSome = true) :
    (dominates d a b).2 = d := by
  obtain ⟨i, hi⟩ := Option.isSome_iff_exists.mp ha
  obtain ⟨j, hj⟩ := Option.isSome_iff_exists.mp hb
  unfold dominates
  simp only [domGetOrInsert_eq d a i hi, domGetOrInsert_eq d b j hj]
  by_cases hij : i = j <;> simp [hij]

theorem dominatorsOf_frame (d : Dom) (v : Nat)
    (hv : (d.vertexIndex v).isSome = true) :
    (dominatorsOf d v).2 = d := by
  obtain ⟨i, hi⟩ := Option.isSome_iff_exists.mp hv
  unfold dominatorsOf
  rw [domGetOrInsert_eq d v i hi]
  by_cases h0 : d.idom i = 0 <;> simp [h0]

/-- Claim C5 (amended): after construction the analyzer is unchanged by
any sequence of `dominates` and `dominatorsOf` calls whose argument
vertices are all present in `vertexIndex` (i.e. reachable).  For an
argument vertex absent from `vertexIndex`, `operator[]` inserts an entry
and the state does change — see `claim_C5_cex`. -/
theorem claim_C5 (d : Dom) (qs : List DomQuery)
    (h : ∀ q ∈ qs, queryKnown d q = true) :
    runQueries d qs = d := by
  induction qs with
  | nil => rfl
  | cons q qs ih =>
    have hq := h q (List.mem_cons_self q qs)
    have hrest : ∀ q' ∈ qs, queryKnown d q' = true :=
      fun q' hq' => h q' (List.mem_cons_of_mem q hq')
    cases q with
    | dom a b =>
      have hab := hq
      simp only [queryKnown, Bool.and_eq_true] at hab
      show runQueries (dominates d a b).2 qs = d
      rw [dominates_frame d a b hab.1 hab.2]
      exact ih hrest
    | doms v =>
      have hv := hq
      simp only [queryKnown] at hv
      show runQueries (dominatorsOf d v).2 qs = d
      rw [dominatorsOf_frame d v hv]
      exact ih hrest

/-- Witness for `claim_C5` on the chain analyzer with one `dominates`
and one `dominatorsOf` call on reachable vertices. -/
theorem claim_C5_witness :
    (∀ q ∈ [DomQuery.dom 0 3, DomQuery.doms 3], queryKnown chainDom q = true) ∧
    runQueries chainDom [DomQuery.dom 0 3, DomQuery.doms 3] = chainDom :=
  ⟨by decide, claim_C5 chainDom [DomQuery.dom 0 3, DomQuery.doms 3] (by decide)⟩

theorem idomChain_bound (idomA : Nat → Nat) (n : Nat)
    (hdec : ∀ j, j < n → 1 ≤ j → idomA j < j) :
    ∀ fuel cur, cur < n → ∀ x ∈ idomChain idomA fuel cur, 1 ≤ x ∧ x ≤ cur := by
  intro fuel
  induction fuel with
  | zero =>
    intro cur hc x hx
    cases cur <;> simp [idomChain] at hx
  | succ f ih =>
    intro cur hc x hx
    cases cur with
    | zero => simp [idomChain] at hx
    | succ c =>
      simp only [idomChain, List.mem_cons] at hx
      rcases hx with rfl | hx
      · exact ⟨Nat.succ_le_succ (Nat.zero_le c), Nat.le_refl _⟩
      · have hlt : idomA (c + 1) < c + 1 := hdec _ hc (Nat.succ_le_succ (Nat.zero_le c))
        have hb := ih (idomA (c + 1)) (Nat.lt_trans hlt hc) x hx
        exact ⟨hb.1, Nat.le_trans hb.2 (Nat.le_of_lt hlt)⟩

/-- Claim C6 (amended): for every reachable vertex `v`, `dominatorsOf(v)`
starts with the entry; for `v` with dfs index `≥ 1` (i.e. `v` not the
entry) the sequence does not contain `v` itself and consists of the
entry and the strict dominators on the idom chain; but for `v = entry`
the returned sequence is `[entry]`, which does contain the entry (and
hence the argument vertex) — the claim's last clause fails, see
`claim_C6_cex`. -/
theorem claim_C6 (d : Dom) (v i : Nat)
    (hv : d.vertexIndex v = some i) (hi : i < d.n) (h0 : d.idom 0 = 0)
    (hxi : ∀ j, j < d.n → d.vertexIndex (d.vertex j) = some j)
    (hdec : ∀ j, j < d.n → 1 ≤ j → d.idom j < j) :
    (dominatorsOf d v).1.head? = some (d.vertex 0) ∧
    (i = 0 → (dominatorsOf d v).1 = [d.vertex 0]) ∧
    (1 ≤ i → v ∉ (dominatorsOf d v).1) := by
  have hchain := dominatorsOf_chain d v i hv
  refine ⟨by rw [hchain]; rfl, ?_, ?_⟩
  · intro hi0
    subst hi0
    rw [hchain, h0]
    simp [idomChain]
  · intro hi1
    rw [hchain]
    intro hmem
    have h0n : 0 < d.n := Nat.lt_of_lt_of_le (Nat.lt_of_lt_of_le Nat.zero_lt_one hi1) (Nat.le_of_lt hi)
    rcases List.mem_cons.mp hmem with hv0 | hvx
    · have := hxi 0 h0n
      rw [← hv0] at this
      rw [hv] at this
      have : i = 0 := by injection this
      omega
    · obtain ⟨x, hxchain, hxv⟩ := List.mem_map.mp hvx
      have hcur : d.idom i < i := hdec i hi hi1
      have hb := idomChain_bound d.idom d.n hdec (d.n + 1) (d.idom i)
        (Nat.lt_trans hcur hi) x hxchain
      have hxn : x < d.n := by omega
      have := hxi x hxn
      rw [hxv, hv] at this
      have hix : i = x := by injection this
      omega

/-- Witness for `claim_C6` on the chain analyzer at vertex `3`. -/
theorem claim_C6_witness :
    (chainDom.vertexIndex 3 = some 3 ∧ (3 : Nat) < chainDom.n ∧ chainDom.idom 0 = 0 ∧
      (∀ j, j < chainDom.n → chainDom.vertexIndex (chainDom.vertex j) = some j) ∧
      (∀ j, j < chainDom.n → 1 ≤ j → chainDom.idom j < j)) ∧
    ((dominatorsOf chainDom 3).1.head? = some (chainDom.vertex 0) ∧
      ((3 : Nat) = 0 → (dominatorsOf chainDom 3).1 = [chainDom.vertex 0]) ∧
      (1 ≤ (3 : Nat) → (3 : Nat) ∉ (dominatorsOf chainDom 3).1)) :=
  ⟨⟨by decide, by decide, by decide, by decide, by decide⟩,
    claim_C6 chainDom 3 3 (by decide) (by decide) (by decide) (by decide) (by decide)⟩

theorem DfsInv.weaken {s : LTState} {P Q : List Nat}
    (h : DfsInv s P) (hPQ : ∀ j, j ∈ P → j ∈ Q) : DfsInv s Q :=
  { h with parPred := fun j h1 h2 hj => h.parPred j h1 h2 (fun hc => hj (hPQ j hc)) }

theorem DfsInv.close {s : LTState} {k : Nat} {P : List Nat}
    (h : DfsInv s (k :: P))
    (hk : k = 0 ∨ s.dfIdx ≤ k ∨ s.parent k ∈ s.preds k) : DfsInv s P := by
  refine { h with parPred := fun j h1 h2 hj => ?_ }
  by_cases hjk : j = k
  · subst hjk
    rcases hk with hk | hk | hk
    · omega
    · omega
    · exact hk
  · exact h.parPred j h1 h2 (by simp [hjk, hj])

theorem dfsFrameRefl (s : LTState) : DfsFrame s s :=
  { mono := Nat.le_refl _
    vtx := fun _ _ => rfl
    sem := fun _ _ => rfl
    lab := fun _ _ => rfl
    par := fun _ _ => rfl
    vis := fun _ h => h
    vmap := fun _ _ => rfl
    prd := fun _ _ h => h
    anc := rfl
    bkt := rfl
    idm := rfl
    nn := rfl
    sc := rfl }

theorem dfsFrameComp {s s' s'' : LTState}
    (h1 : DfsFrame s s') (h2 : DfsFrame s' s'') : DfsFrame s s'' :=
  { mono := Nat.le_trans h1.mono h2.mono
    vtx := fun j hj => by rw [h2.vtx j (Nat.lt_of_lt_of_le hj h1.mono), h1.vtx j hj]
    sem := fun j hj => by rw [h2.sem j (Nat.lt_of_lt_of_le hj h1.mono), h1.sem j hj]
    lab := fun j hj => by rw [h2.lab j (Nat.lt_of_lt_of_le hj h1.mono), h1.lab j hj]
    par := fun j hj => by rw [h2.par j (Nat.lt_of_lt_of_le hj h1.mono), h1.par j hj]
    vis := fun x hx => h2.vis x (h1.vis x hx)
    vmap := fun x hx => by rw [h2.vmap x (h1.vis x hx), h1.vmap x hx]
    prd := fun j p hp => h2.prd j p (h1.prd j p hp)
    anc := by rw [h2.anc, h1.anc]
    bkt := by rw [h2.bkt, h1.bkt]
    idm := by rw [h2.idm, h1.idm]
    nn := by rw [h2.nn, h1.nn]
    sc := by rw [h2.sc, h1.sc] }

theorem dfsAssign_inv (v : Nat) (s : LTState) (P : List Nat)
    (hInv : DfsInv s P) (hvis : s.visited v = false)
    (hpend : s.dfIdx = 0 ∨ s.parent s.dfIdx < s.dfIdx) :
    DfsInv (dfsAssign v s) (s.dfIdx :: P) := by
  refine
    { semiLt := ?_, labelLt := ?_, labelGe := ?_, semiGe := ?_, parLt := ?_, parZero := ?_,
      parPred := ?_, mapLt := ?_, mapVtx := ?_, visVtx := ?_, predLt := ?_, visMap := ?_ } <;>
    simp only [dfsAssign]
  · intro j hj
    by_cases hjk : j = s.dfIdx
    · subst hjk; rw [upd_self]
    · rw [upd_other _ _ _ _ hjk]; exact hInv.semiLt j (by omega)
  · intro j hj
    by_cases hjk : j = s.dfIdx
    · subst hjk; rw [upd_self]
    · rw [upd_other _ _ _ _ hjk]; exact hInv.labelLt j (by omega)
  · intro j hj
    rw [upd_other _ _ _ _ (by omega)]
    exact hInv.labelGe j (by omega)
  · intro j hj
    rw [upd_other _ _ _ _ (by omega)]
    exact hInv.semiGe j (by omega)
  · intro j h1 hj
    by_cases hjk : j = s.dfIdx
    · subst hjk
      rcases hpend with hp | hp
      · omega
      · exact hp
    · exact hInv.parLt j h1 (by omega)
  · exact hInv.parZero
  · intro j h1 hj hjP
    have hjk : j ≠ s.dfIdx := fun hc => hjP (by simp [hc])
    exact hInv.parPred j h1 (by omega) (fun hc => hjP (by simp [hc]))
  · intro x j hx
    by_cases hxv : x = v
    · subst hxv
      rw [upd_self] at hx
      injection hx with hx
      omega
    · rw [upd_other _ _ _ _ hxv] at hx
      have := hInv.mapLt x j hx
      omega
  · intro j hj
    by_cases hjk : j = s.dfIdx
    · subst hjk
      rw [upd_self, upd_self]
    · rw [upd_other _ _ _ _ hjk]
      have hne : s.vertex j ≠ v := by
        intro hc
        have := hInv.visVtx j (by omega)
        rw [hc, hvis] at this
        exact Bool.false_ne_true this
      rw [upd_other _ _ _ _ hne]
      exact hInv.mapVtx j (by omega)
  · intro j hj
    by_cases hjk : j = s.dfIdx
    · subst hjk
      rw [upd_self, upd_self]
    · rw [upd_other _ _ _ _ hjk]
      by_cases hne : s.vertex j = v
      · rw [hne, upd_self]
      · rw [upd_other _ _ _ _ hne]
        exact hInv.visVtx j (by omega)
  · intro j p hp
    have := hInv.predLt j p hp
    omega
  · intro x hx
    by_cases hxv : x = v
    · subst hxv
      rw [upd_self]
      rfl
    · rw [upd_other _ _ _ _ hxv] at hx ⊢
      exact hInv.visMap x hx

theorem dfsAssign_frame (v : Nat) (s : LTState) (hvis : s.visited v = false) :
    DfsFrame s (dfsAssign v s) := by
  refine
    { mono := by simp [dfsAssign], vtx := ?_, sem := ?_, lab := ?_, par := ?_, vis := ?_,
      vmap := ?_, prd := ?_, anc := rfl, bkt := rfl, idm := rfl, nn := rfl, sc := rfl } <;>
    simp only [dfsAssign]
  · intro j hj; rw [upd_other _ _ _ _ (by omega)]
  · intro j hj; rw [upd_other _ _ _ _ (by omega)]
  · intro j hj; rw [upd_other _ _ _ _ (by omega)]
  · intro j hj; trivial
  · intro x hx
    by_cases hxv : x = v
    · subst hxv; rw [upd_self]
    · rw [upd_other _ _ _ _ hxv]; exact hx
  · intro x hx
    have hxv : x ≠ v := fun hc => by rw [hc, hvis] at hx; exact Bool.false_ne_true hx
    rw [upd_other _ _ _ _ hxv]
  · intro j p hp; exact hp

theorem parentWrite_eq (v : Nat) (s : LTState) (p : Nat) (hv : s.vertexIndex v = some p) :
    parentWrite v s = { s with parent := upd s.parent s.dfIdx p } := by
  simp [parentWrite, mapGetOrInsert_some _ _ _ hv]

theorem parentWrite_inv (v : Nat) (s : LTState) (P : List Nat) (p : Nat)
    (hInv : DfsInv s P) (hv : s.vertexIndex v = some p) (h1 : 1 ≤ s.dfIdx) :
    DfsInv (parentWrite v s) P := by
  rw [parentWrite_eq v s p hv]
  refine { hInv with parLt := ?_, parZero := ?_, parPred := ?_ }
  · dsimp only
    intro j hj1 hj2
    rw [upd_other _ _ _ _ (by omega)]
    exact hInv.parLt j hj1 hj2
  · dsimp only
    rw [upd_other _ _ _ _ (by omega)]
    exact hInv.parZero
  · dsimp only
    intro j hj1 hj2 hjP
    rw [upd_other _ _ _ _ (by omega)]
    exact hInv.parPred j hj1 hj2 hjP

theorem parentWrite_frame (v : Nat) (s : LTState) (p : Nat)
    (hv : s.vertexIndex v = some p) : DfsFrame s (parentWrite v s) := by
  rw [parentWrite_eq v s p hv]
  refine { dfsFrameRefl s with par := ?_ }
  dsimp only
  intro j hj
  rw [upd_other _ _ _ _ (by omega)]

theorem predInsert_eq_present (w v : Nat) (s : LTState) (iw p : Nat)
    (hw : s.vertexIndex w = some iw) (hv : s.vertexIndex v = some p) :
    predInsert w v s = { s with preds := upd s.preds iw (setInsert p (s.preds iw)) } := by
  simp [predInsert, mapGetOrInsert_some _ _ _ hw, mapGetOrInsert_some _ _ _ hv]

theorem predInsert_eq_absent (w v : Nat) (s : LTState) (p : Nat)
    (hw : s.vertexIndex w = none) (hv : s.vertexIndex v = some p) :
    predInsert w v s =
      { s with
        vertexIndex := upd s.vertexIndex w (some 0)
        preds := upd s.preds 0 (setInsert p (s.preds 0)) } := by
  have hvw : v ≠ w := fun hc => by rw [hc, hw] at hv; exact Option.noConfusion hv
  have hv' : upd s.vertexIndex w (some 0) v = some p := by rw [upd_other _ _ _ _ hvw]; exact hv
  simp [predInsert, mapGetOrInsert_none _ _ hw, mapGetOrInsert_some _ _ _ hv']

theorem predInsert_inv_present (w v : Nat) (s : LTState) (P : List Nat) (iw p : Nat)
    (hInv : DfsInv s P) (hw : s.vertexIndex w = some iw) (hv : s.vertexIndex v = some p) :
    DfsInv (predInsert w v s) P := by
  rw [predInsert_eq_present w v s iw p hw hv]
  have hp : p < s.dfIdx := hInv.mapLt v p hv
  refine { hInv with parPred := ?_, predLt := ?_ }
  · dsimp only
    intro j hj1 hj2 hjP
    by_cases hji : j = iw
    · subst hji
      rw [upd_self, mem_setInsert]
      exact Or.inr (hInv.parPred _ hj1 hj2 hjP)
    · rw [upd_other _ _ _ _ hji]
      exact hInv.parPred j hj1 hj2 hjP
  · dsimp only
    intro j q hq
    by_cases hji : j = iw
    · subst hji
      rw [upd_self, mem_setInsert] at hq
      rcases hq with rfl | hq
      · exact hp
      · exact hInv.predLt _ q hq
    · rw [upd_other _ _ _ _ hji] at hq
      exact hInv.predLt j q hq

theorem predInsert_frame_present (w v : Nat) (s : LTState) (iw p : Nat)
    (hw : s.vertexIndex w = some iw) (hv : s.vertexIndex v = some p) :
    DfsFrame s (predInsert w v s) := by
  rw [predInsert_eq_present w v s iw p hw hv]
  refine { dfsFrameRefl s with prd := ?_ }
  dsimp only
  intro j q hq
  by_cases hji : j = iw
  · subst hji
    rw [upd_self, mem_setInsert]
    exact Or.inr hq
  · rw [upd_other _ _ _ _ hji]
    exact hq

theorem predInsert_inv_absent (w v : Nat) (s : LTState) (P : List Nat) (p : Nat)
    (hInv : DfsInv s P) (hw : s.vertexIndex w = none) (hv : s.vertexIndex v = some p)
    (h1 : 1 ≤ s.dfIdx) :
    DfsInv (predInsert w v s) P := by
  rw [predInsert_eq_absent w v s p hw hv]
  have hp : p < s.dfIdx := hInv.mapLt v p hv
  refine { hInv with parPred := ?_, mapLt := ?_, mapVtx := ?_, predLt := ?_, visMap := ?_ }
  · dsimp only
    intro j hj1 hj2 hjP
    have hj0 : j ≠ 0 := by omega
    rw [upd_other _ _ _ _ hj0]
    exact hInv.parPred j hj1 hj2 hjP
  · dsimp only
    intro x j hx
    by_cases hxw : x = w
    · subst hxw
      rw [upd_self] at hx
      injection hx with hx
      omega
    · rw [upd_other _ _ _ _ hxw] at hx
      exact hInv.mapLt x j hx
  · dsimp only
    intro j hj
    have hne : s.vertex j ≠ w := by
      intro hc
      have := hInv.mapVtx j hj
      rw [hc, hw] at this
      exact Option.noConfusion this
    rw [upd_other _ _ _ _ hne]
    exact hInv.mapVtx j hj
  · dsimp only
    intro j q hq
    by_cases hj0 : j = 0
    · subst hj0
      rw [upd_self, mem_setInsert] at hq
      rcases hq with rfl | hq
      · exact hp
      · exact hInv.predLt _ q hq
    · rw [upd_other _ _ _ _ hj0] at hq
      exact hInv.predLt j q hq
  · dsimp only
    intro x hx
    have hne : x ≠ w := by
      intro hc
      have := hInv.visMap x hx
      rw [hc, hw] at this
      simp at this
    rw [upd_other _ _ _ _ hne]
    exact hInv.visMap x hx

theorem predInsert_frame_absent (w v : Nat) (s : LTState) (P : List Nat) (p : Nat)
    (hInv : DfsInv s P) (hw : s.vertexIndex w = none) (hv : s.vertexIndex v = some p) :
    DfsFrame s (predInsert w v s) := by
  rw [predInsert_eq_absent w v s p hw hv]
  refine { dfsFrameRefl s with vmap := ?_, prd := ?_ }
  · dsimp only
    intro x hx
    have hne : x ≠ w := by
      intro hc
      have := hInv.visMap x hx
      rw [hc, hw] at this
      simp at this
    rw [upd_other _ _ _ _ hne]
  · dsimp only
    intro j q hq
    by_cases hj0 : j = 0
    · subst hj0
      rw [upd_self, mem_setInsert]
      exact Or.inr hq
    · rw [upd_other _ _ _ _ hj0]
      exact hq

theorem oobSet_inv (s : LTState) (P : List Nat) (hInv : DfsInv s P) :
    DfsInv { s with oob := true } P :=
  { hInv with }

theorem oobSet_frame (s : LTState) : DfsFrame s { s with oob := true } :=
  { dfsFrameRefl s with }

theorem predInsert_any (w v : Nat) (s : LTState) (P : List Nat) (p : Nat)
    (hInv : DfsInv s P) (hv : s.vertexIndex v = some p) (h1 : 1 ≤ s.dfIdx) :
    DfsInv (predInsert w v s) P ∧ DfsFrame s (predInsert w v s) ∧
    (predInsert w v s).dfIdx = s.dfIdx ∧ (predInsert w v s).visited = s.visited ∧
    (predInsert w v s).parent = s.parent := by
  cases hw : s.vertexIndex w with
  | some iw =>
    refine ⟨predInsert_inv_present w v s P iw p hInv hw hv,
      predInsert_frame_present w v s iw p hw hv, ?_, ?_, ?_⟩ <;>
      rw [predInsert_eq_present w v s iw p hw hv]
  | none =>
    refine ⟨predInsert_inv_absent w v s P p hInv hw hv h1,
      predInsert_frame_absent w v s P p hInv hw hv, ?_, ?_, ?_⟩ <;>
      rw [predInsert_eq_absent w v s p hw hv]

theorem parentWrite_facts (v : Nat) (s : LTState) (p : Nat) (hv : s.vertexIndex v = some p) :
    (parentWrite v s).dfIdx = s.dfIdx ∧ (parentWrite v s).visited = s.visited ∧
    (parentWrite v s).vertexIndex = s.vertexIndex ∧
    (parentWrite v s).parent s.dfIdx = p := by
  rw [parentWrite_eq v s p hv]
  refine ⟨rfl, rfl, rfl, ?_⟩
  dsimp only
  rw [upd_self]

/-- The successor loop preserves the dfs invariant and frame, given that
the recursive call `go` satisfies its specification. -/
theorem dfsSuccsAux (go : Nat → LTState → LTState) (hgo : DfsCallSpec go) (v : Nat) :
    ∀ ws s P, DfsInv s P → s.visited v = true → 1 ≤ s.dfIdx →
      DfsInv (dfsSuccs go v ws s) P ∧ DfsFrame s (dfsSuccs go v ws s) := by
  intro ws
  induction ws with
  | nil =>
    intro s P hInv hv h1
    exact ⟨hInv, dfsFrameRefl s⟩
  | cons w ws ih =>
    intro s P hInv hv h1
    obtain ⟨p, hp⟩ := Option.isSome_iff_exists.mp (hInv.visMap v hv)
    by_cases hrange : s.dfIdx < s.n
    · have hsemi : s.semi s.dfIdx = undefIdx := hInv.semiGe _ (Nat.le_refl _)
      have hunfold : dfsSuccs go v (w :: ws) s =
          dfsSuccs go v ws (predInsert w v (go w (parentWrite v s))) := by
        simp only [dfsSuccs, if_pos hrange, if_pos hsemi]
      rw [hunfold]
      obtain ⟨hpwd, hpwv, hpwm, hpwp⟩ := parentWrite_facts v s p hp
      have hpwInv : DfsInv (parentWrite v s) P := parentWrite_inv v s P p hInv hp h1
      have hpwFr : DfsFrame s (parentWrite v s) := parentWrite_frame v s p hp
      have hpend : (parentWrite v s).dfIdx = 0 ∨
          (parentWrite v s).parent (parentWrite v s).dfIdx < (parentWrite v s).dfIdx := by
        right
        rw [hpwd, hpwp]
        exact hInv.mapLt v p hp
      obtain ⟨hInv1, hFr1, hparLe, hIdV, hAsn⟩ := hgo w (parentWrite v s) P hpwInv hpend
      rw [hpwd] at hInv1
      have hvis1 : (go w (parentWrite v s)).visited v = true := by
        apply hFr1.vis
        rw [hpwv]
        exact hv
      have hmap1 : (go w (parentWrite v s)).vertexIndex v = some p := by
        rw [hFr1.vmap v (by rw [hpwv]; exact hv), hpwm]
        exact hp
      have hd1 : s.dfIdx ≤ (go w (parentWrite v s)).dfIdx := by
        have := hFr1.mono
        omega
      have h11 : 1 ≤ (go w (parentWrite v s)).dfIdx := by omega
      -- establish the invariant with exception list P for the state after the insert
      have hmain : DfsInv (predInsert w v (go w (parentWrite v s))) P ∧
          DfsFrame (go w (parentWrite v s)) (predInsert w v (go w (parentWrite v s))) ∧
          (predInsert w v (go w (parentWrite v s))).dfIdx = (go w (parentWrite v s)).dfIdx ∧
          (predInsert w v (go w (parentWrite v s))).visited = (go w (parentWrite v s)).visited := by
        cases hwv : s.visited w with
        | true =>
          have hid : go w (parentWrite v s) = parentWrite v s := hIdV (by rw [hpwv]; exact hwv)
          have hInvP : DfsInv (go w (parentWrite v s)) P := by rw [hid]; exact hpwInv
          obtain ⟨ha, hb, hc, hd, _⟩ :=
            predInsert_any w v (go w (parentWrite v s)) P p hInvP hmap1 h11
          exact ⟨ha, hb, hc, hd⟩
        | false =>
          rcases hAsn (by rw [hpwv]; exact hwv) with ⟨hw1, hw2⟩ | hid
          · -- the recursive call assigned index s.dfIdx to w; the insert closes the pending slot
            rw [hpwd] at hw2
            have hInv2 : DfsInv (predInsert w v (go w (parentWrite v s))) (s.dfIdx :: P) :=
              predInsert_inv_present w v (go w (parentWrite v s)) (s.dfIdx :: P) s.dfIdx p
                hInv1 hw2 hmap1
            have hpar2 : (predInsert w v (go w (parentWrite v s))).parent =
                (go w (parentWrite v s)).parent := by
              rw [predInsert_eq_present w v (go w (parentWrite v s)) s.dfIdx p hw2 hmap1]
            have hprd2 : (predInsert w v (go w (parentWrite v s))).preds s.dfIdx =
                setInsert p ((go w (parentWrite v s)).preds s.dfIdx) := by
              rw [predInsert_eq_present w v (go w (parentWrite v s)) s.dfIdx p hw2 hmap1]
              dsimp only
              rw [upd_self]
            have hclose : DfsInv (predInsert w v (go w (parentWrite v s))) P := by
              apply hInv2.close
              right; right
              rw [hpar2, hprd2]
              have : (go w (parentWrite v s)).parent s.dfIdx = p := by
                rw [hparLe s.dfIdx (by rw [hpwd]), hpwp]
              rw [this, mem_setInsert]
              exact Or.inl rfl
            obtain ⟨_, hb, hc, hd, _⟩ :=
              predInsert_any w v (go w (parentWrite v s)) (s.dfIdx :: P) p hInv1 hmap1 h11
            exact ⟨hclose, hb, hc, hd⟩
          · have hInvP : DfsInv (go w (parentWrite v s)) P := by rw [hid]; exact hpwInv
            obtain ⟨ha, hb, hc, hd, _⟩ :=
              predInsert_any w v (go w (parentWrite v s)) P p hInvP hmap1 h11
            exact ⟨ha, hb, hc, hd⟩
      obtain ⟨hInv3, hFr3, hd3, hv3⟩ := hmain
      have hrec := ih (predInsert w v (go w (parentWrite v s))) P hInv3
        (by rw [hv3]; exact hvis1) (by omega)
      refine ⟨hrec.1, ?_⟩
      exact dfsFrameComp (dfsFrameComp (dfsFrameComp hpwFr hFr1) hFr3) hrec.2
    · have hunfold : dfsSuccs go v (w :: ws) s =
          dfsSuccs go v ws (predInsert w v { s with oob := true }) := by
        simp only [dfsSuccs, if_neg hrange]
      rw [hunfold]
      have hoInv : DfsInv { s with oob := true } P := oobSet_inv s P hInv
      have hoFr : DfsFrame s { s with oob := true } := oobSet_frame s
      obtain ⟨ha, hb, hc, hd, _⟩ :=
        predInsert_any w v { s with oob := true } P p hoInv hp h1
      have hrec := ih (predInsert w v { s with oob := true }) P ha
        (by rw [hd]; exact hv) (by rw [hc]; exact h1)
      exact ⟨hrec.1, dfsFrameComp (dfsFrameComp hoFr hb) hrec.2⟩

/-- The dfs satisfies `DfsCallSpec` for every fuel. -/
theorem dfsVisitSpec : ∀ fuel, DfsCallSpec (dfsVisit fuel) := by
  intro fuel
  induction fuel with
  | zero =>
    intro w s P hInv hpend
    exact ⟨hInv.weaken (fun j hj => List.mem_cons_of_mem _ hj), dfsFrameRefl s,
      fun j _ => rfl, fun _ => rfl, fun _ => Or.inr rfl⟩
  | succ fuel ih =>
    intro w s P hInv hpend
    cases hw : s.visited w with
    | true =>
      have heq : dfsVisit (fuel + 1) w s = s := by simp [dfsVisit, hw]
      rw [heq]
      exact ⟨hInv.weaken (fun j hj => List.mem_cons_of_mem _ hj), dfsFrameRefl s,
        fun j _ => rfl, fun _ => rfl, fun hc => absurd hc (by simp)⟩
    | false =>
      have heq : dfsVisit (fuel + 1) w s =
          dfsSuccs (dfsVisit fuel) w (s.succ w) (dfsAssign w s) := by
        simp [dfsVisit, hw]
      have haInv : DfsInv (dfsAssign w s) (s.dfIdx :: P) := dfsAssign_inv w s P hInv hw hpend
      have haFr : DfsFrame s (dfsAssign w s) := dfsAssign_frame w s hw
      have havis : (dfsAssign w s).visited w = true := by
        show upd s.visited w true w = true
        rw [upd_self]
      have hamap : (dfsAssign w s).vertexIndex w = some s.dfIdx := by
        show upd s.vertexIndex w (some s.dfIdx) w = some s.dfIdx
        rw [upd_self]
      have had : (dfsAssign w s).dfIdx = s.dfIdx + 1 := rfl
      have hsuc := dfsSuccsAux (dfsVisit fuel) ih w (s.succ w) (dfsAssign w s) (s.dfIdx :: P)
        haInv havis (by omega)
      rw [heq]
      refine ⟨hsuc.1, dfsFrameComp haFr hsuc.2, ?_, ?_, ?_⟩
      · intro j hj
        have h1 : (dfsSuccs (dfsVisit fuel) w (s.succ w) (dfsAssign w s)).parent j =
            (dfsAssign w s).parent j := hsuc.2.par j (by omega)
        rw [h1]
        rfl
      · intro hc
        exact absurd hc (by simp)
      · intro _
        left
        constructor
        · exact hsuc.2.vis w havis
        · rw [hsuc.2.vmap w havis, hamap]

theorem clFrameRefl (s : LTState) : CLFrame s s :=
  { nn := rfl, sc := rfl, vtx := rfl, vmap := rfl, sem := rfl, par := rfl, vis := rfl,
    prd := rfl, bkt := rfl, idm := rfl, dfx := rfl, oo := rfl }

theorem clFrameComp {s s' s'' : LTState} (h1 : CLFrame s s') (h2 : CLFrame s' s'') :
    CLFrame s s'' :=
  { nn := by rw [h2.nn, h1.nn]
    sc := by rw [h2.sc, h1.sc]
    vtx := by rw [h2.vtx, h1.vtx]
    vmap := by rw [h2.vmap, h1.vmap]
    sem := by rw [h2.sem, h1.sem]
    par := by rw [h2.par, h1.par]
    vis := by rw [h2.vis, h1.vis]
    prd := by rw [h2.prd, h1.prd]
    bkt := by rw [h2.bkt, h1.bkt]
    idm := by rw [h2.idm, h1.idm]
    dfx := by rw [h2.dfx, h1.dfx]
    oo := by rw [h2.oo, h1.oo] }

theorem labelUpdate_spec (w u v : Nat) (s : LTState) (hpre : CPre w s) (huv : u < v) :
    CLFrame s (labelUpdate u v s) ∧ CPre w (labelUpdate u v s) ∧
    (labelUpdate u v s).ancestor = s.ancestor := by
  unfold labelUpdate
  by_cases hc : s.semi (s.label u) < s.semi (s.label v)
  · rw [if_pos hc]
    refine ⟨{ clFrameRefl s with }, ?_, rfl⟩
    refine { hpre with labelLe := ?_ }
    dsimp only
    intro j
    by_cases hj : j = v
    · subst hj
      rw [upd_self]
      exact Nat.le_trans (hpre.labelLe u) (Nat.le_of_lt huv)
    · rw [upd_other _ _ _ _ hj]
      exact hpre.labelLe j
  · rw [if_neg hc]
    exact ⟨clFrameRefl s, hpre, rfl⟩

theorem ancestorShort_spec (w u v : Nat) (s : LTState) (hpre : CPre w s)
    (huv : u < v) (hwv : w < v) :
    CLFrame s (ancestorShort u v s) ∧ CPre w (ancestorShort u v s) ∧
    (ancestorShort u v s).label = s.label := by
  unfold ancestorShort
  refine ⟨{ clFrameRefl s with }, ?_, rfl⟩
  refine { hpre with ancLow := ?_, ancLt := ?_ }
  · dsimp only
    intro j hj
    rw [upd_other _ _ _ _ (by omega)]
    exact hpre.ancLow j hj
  · dsimp only
    intro j
    by_cases hj : j = v
    · subst hj
      rw [upd_self]
      rcases hpre.ancLt u with h | h
      · exact Or.inl h
      · exact Or.inr (by omega)
    · rw [upd_other _ _ _ _ hj]
      exact hpre.ancLt j

theorem compress_spec (w : Nat) :
    ∀ fuel s v, CPre w s → s.ancestor v ≠ undefIdx →
      CLFrame s (compressPath fuel s v) ∧ CPre w (compressPath fuel s v) := by
  intro fuel
  induction fuel with
  | zero =>
    intro s v hpre _
    exact ⟨clFrameRefl s, hpre⟩
  | succ fuel ih =>
    intro s v hpre hg
    have hvlt : s.ancestor v < v := by
      rcases hpre.ancLt v with h | h
      · exact absurd h hg
      · exact h
    by_cases hgu : s.ancestor (s.ancestor v) ≠ undefIdx
    · have hunfold : compressPath (fuel + 1) s v =
          ancestorShort (s.ancestor v) v (labelUpdate (s.ancestor v) v
            (compressPath fuel s (s.ancestor v))) := by
        simp only [compressPath, if_pos hgu]
      rw [hunfold]
      obtain ⟨hF1, hP1⟩ := ih s (s.ancestor v) hpre hgu
      have huv : s.ancestor v < v := hvlt
      obtain ⟨hF2, hP2, _⟩ :=
        labelUpdate_spec w (s.ancestor v) v (compressPath fuel s (s.ancestor v)) hP1 huv
      have hwv : w < v := by
        by_contra hle
        exact hg (hpre.ancLow v (by omega))
      obtain ⟨hF3, hP3, _⟩ :=
        ancestorShort_spec w (s.ancestor v) v
          (labelUpdate (s.ancestor v) v (compressPath fuel s (s.ancestor v))) hP2 huv hwv
      exact ⟨clFrameComp (clFrameComp hF1 hF2) hF3, hP3⟩
    · have hunfold : compressPath (fuel + 1) s v = s := by
        simp only [compressPath, if_neg hgu]
      rw [hunfold]
      exact ⟨clFrameRefl s, hpre⟩

theorem evalPC_spec (w : Nat) (s : LTState) (v : Nat) (hpre : CPre w s) :
    CLFrame s (evalPC s v).1 ∧ CPre w (evalPC s v).1 ∧ (evalPC s v).2 ≤ v ∧
    (v ≤ w → evalPC s v = (s, v)) := by
  unfold evalPC
  by_cases hg : s.ancestor v ≠ undefIdx
  · rw [if_pos hg]
    obtain ⟨hF, hP⟩ := compress_spec w s.n s v hpre hg
    refine ⟨hF, hP, hP.labelLe v, ?_⟩
    intro hvw
    exact absurd (hpre.ancLow v hvw) hg
  · rw [if_neg hg]
    exact ⟨clFrameRefl s, hpre, Nat.le_refl v, fun _ => rfl⟩

theorem qFrameRefl (s : LTState) : QFrame s s :=
  { nn := rfl, vtx := rfl, vmap := rfl, par := rfl, prd := rfl, bkt := rfl }

theorem qFrameComp {s s' s'' : LTState} (h1 : QFrame s s') (h2 : QFrame s' s'') :
    QFrame s s'' :=
  { nn := by rw [h2.nn, h1.nn]
    vtx := by rw [h2.vtx, h1.vtx]
    vmap := by rw [h2.vmap, h1.vmap]
    par := by rw [h2.par, h1.par]
    prd := by rw [h2.prd, h1.prd]
    bkt := by rw [h2.bkt, h1.bkt] }

theorem qFrameOfCL {s s' : LTState} (h : CLFrame s s') : QFrame s s' :=
  { nn := h.nn, vtx := h.vtx, vmap := h.vmap, par := h.par, prd := h.prd, bkt := h.bkt }

theorem bucketStep_spec (w : Nat) (s : LTState) (e : Nat) (hpre : CPre w s)
    (hew : w < e) (hsem : s.semi e = w) :
    QFrame s (bucketStep w s e) ∧ (bucketStep w s e).semi = s.semi ∧
    CPre w (bucketStep w s e) ∧
    (bucketStep w s e).idom e < e ∧
    (∀ x, x ≠ e → (bucketStep w s e).idom x = s.idom x) := by
  obtain ⟨hF, hP, hle, _⟩ := evalPC_spec w s e hpre
  unfold bucketStep
  refine ⟨?_, ?_, ?_, ?_, ?_⟩
  · exact
      { nn := hF.nn
        vtx := hF.vtx
        vmap := hF.vmap
        par := hF.par
        prd := hF.prd
        bkt := hF.bkt }
  · exact hF.sem
  · exact { hP with }
  · dsimp only
    rw [upd_self]
    have hsE : (evalPC s e).1.semi e = w := by rw [hF.sem]; exact hsem
    by_cases hc : (evalPC s e).1.semi (evalPC s e).2 < (evalPC s e).1.semi e
    · rw [if_pos hc]
      rcases Nat.eq_or_lt_of_le hle with he | hlt
      · rw [he] at hc
        exact absurd hc (Nat.lt_irrefl _)
      · exact hlt
    · rw [if_neg hc]
      exact hew
  · dsimp only
    intro x hx
    rw [upd_other _ _ _ _ hx]
    exact congrFun hF.idm x

theorem bucketFold_spec (w : Nat) :
    ∀ (lst : List Nat) (s : LTState), CPre w s → (∀ x ∈ lst, w < x ∧ s.semi x = w) →
      QFrame s (lst.foldl (bucketStep w) s) ∧
      (lst.foldl (bucketStep w) s).semi = s.semi ∧
      CPre w (lst.foldl (bucketStep w) s) ∧
      (∀ x ∈ lst, (lst.foldl (bucketStep w) s).idom x < x) ∧
      (∀ x, x ∉ lst → (lst.foldl (bucketStep w) s).idom x = s.idom x) := by
  intro lst
  induction lst with
  | nil =>
    intro s hpre _
    exact ⟨qFrameRefl s, rfl, hpre, by simp, fun x _ => rfl⟩
  | cons e es ih =>
    intro s hpre hmem
    obtain ⟨hew, hsem⟩ := hmem e (List.mem_cons_self e es)
    obtain ⟨hQ1, hS1, hP1, hIdE, hIdO⟩ := bucketStep_spec w s e hpre hew hsem
    have hmem' : ∀ x ∈ es, w < x ∧ (bucketStep w s e).semi x = w := by
      intro x hx
      obtain ⟨b, c⟩ := hmem x (List.mem_cons_of_mem e hx)
      exact ⟨b, by rw [hS1]; exact c⟩
    obtain ⟨hQ2, hS2, hP2, hIdEs, hIdO2⟩ := ih (bucketStep w s e) hP1 hmem'
    rw [List.foldl_cons]
    refine ⟨qFrameComp hQ1 hQ2, by rw [hS2, hS1], hP2, ?_, ?_⟩
    · intro x hx
      rcases List.mem_cons.mp hx with rfl | hx2
      · by_cases hxe : x ∈ es
        · exact hIdEs x hxe
        · rw [hIdO2 x hxe]
          exact hIdE
      · exact hIdEs x hx2
    · intro x hx
      have hxe : x ≠ e := fun hc => hx (hc ▸ List.mem_cons_self e es)
      have hxes : x ∉ es := fun hc => hx (List.mem_cons_of_mem e hc)
      rw [hIdO2 x hxes, hIdO x hxe]

theorem semiStep_spec (w : Nat) (s : LTState) (e : Nat) (hpre : CPre w s)
    (hlow : ∀ j, j < w → s.semi j = j) :
    QFrame s (semiStep w s e) ∧ CPre w (semiStep w s e) ∧
    (semiStep w s e).idom = s.idom ∧
    (∀ j, j ≠ w → (semiStep w s e).semi j = s.semi j) ∧
    (semiStep w s e).semi w ≤ s.semi w ∧
    (e < w → (semiStep w s e).semi w ≤ e) := by
  obtain ⟨hF, hP, hle, hid⟩ := evalPC_spec w s e hpre
  unfold semiStep
  dsimp only
  by_cases hc : (evalPC s e).1.semi (evalPC s e).2 < (evalPC s e).1.semi w
  · rw [if_pos hc]
    refine ⟨?_, { hP with }, hF.idm, ?_, ?_, ?_⟩
    · exact
        { nn := hF.nn
          vtx := hF.vtx
          vmap := hF.vmap
          par := hF.par
          prd := hF.prd
          bkt := hF.bkt }
    · dsimp only
      intro j hj
      rw [upd_other _ _ _ _ hj]
      exact congrFun hF.sem j
    · dsimp only
      rw [upd_self]
      have := congrFun hF.sem w
      omega
    · intro hew
      have hident := hid (by omega)
      rw [hident] at hc ⊢
      dsimp only at hc ⊢
      rw [upd_self, hlow e hew]
  · rw [if_neg hc]
    refine ⟨qFrameOfCL hF, hP, hF.idm, fun j _ => congrFun hF.sem j,
      Nat.le_of_eq (congrFun hF.sem w), ?_⟩
    intro hew
    have hident := hid (by omega)
    rw [hident] at hc ⊢
    dsimp only at hc ⊢
    have h1 : s.semi w ≤ s.semi e := Nat.le_of_not_lt hc
    rw [hlow e hew] at h1
    exact h1

theorem semiFold_spec (w : Nat) :
    ∀ (lst : List Nat) (s : LTState), CPre w s → (∀ j, j < w → s.semi j = j) →
      QFrame s (lst.foldl (semiStep w) s) ∧
      CPre w (lst.foldl (semiStep w) s) ∧
      (lst.foldl (semiStep w) s).idom = s.idom ∧
      (∀ j, j ≠ w → (lst.foldl (semiStep w) s).semi j = s.semi j) ∧
      (lst.foldl (semiStep w) s).semi w ≤ s.semi w ∧
      (∀ p ∈ lst, p < w → (lst.foldl (semiStep w) s).semi w ≤ p) := by
  intro lst
  induction lst with
  | nil =>
    intro s hpre _
    exact ⟨qFrameRefl s, hpre, rfl, fun _ _ => rfl, Nat.le_refl _, by simp⟩
  | cons e es ih =>
    intro s hpre hlow
    obtain ⟨hQ1, hP1, hId1, hSo1, hSw1, hSe1⟩ := semiStep_spec w s e hpre hlow
    have hlow' : ∀ j, j < w → (semiStep w s e).semi j = j := by
      intro j hj
      rw [hSo1 j (by omega)]
      exact hlow j hj
    obtain ⟨hQ2, hP2, hId2, hSo2, hSw2, hSe2⟩ := ih (semiStep w s e) hP1 hlow'
    rw [List.foldl_cons]
    refine ⟨qFrameComp hQ1 hQ2, hP2, by rw [hId2, hId1], ?_, ?_, ?_⟩
    · intro j hj
      rw [hSo2 j hj, hSo1 j hj]
    · exact Nat.le_trans hSw2 hSw1
    · intro p hp hpw
      rcases List.mem_cons.mp hp with rfl | hp2
      · exact Nat.le_trans hSw2 (hSe1 hpw)
      · exact hSe2 p hp2 hpw

theorem ltIterSlot_eq (s : LTState) (i : Nat) (h : s.vertexIndex (s.vertex i) = some i) :
    ltIterSlot s i =
      ltLink i (ltAppend i
        ((((s.bucket i).foldl (bucketStep i) s).preds i).foldl (semiStep i)
          ((s.bucket i).foldl (bucketStep i) s))) := by
  unfold ltIterSlot
  rw [mapGetOrInsert_some _ _ _ h]

/-- The main per-iteration lemma of the reverse loop: from the invariant
for the current index `w` it yields the invariant for `w - 1`, or the
post-loop statement once index `0` has been processed. -/
theorem ltIterSlot_spec (base : LTState) (n : Nat) (hbase : PostDfs n base) (w : Nat)
    (hw : w < n) (s : LTState) (hinv : LoopInv base w s) :
    (1 ≤ w → LoopInv base (w - 1) (ltIterSlot s w)) ∧
    (w = 0 → PostLoop base (ltIterSlot s w)) := by
  have hbn : base.n = n := hbase.hn
  have hmap : s.vertexIndex (s.vertex w) = some w := by
    rw [hinv.frameM, hinv.frameV]
    exact hbase.mapVtx w hw
  rw [ltIterSlot_eq s w hmap]
  have hmemB : ∀ x ∈ s.bucket w, w < x ∧ s.semi x = w := by
    intro x hx
    obtain ⟨h1, h2, h3, h4⟩ := hinv.bkt w x hx
    exact ⟨h3, h4⟩
  obtain ⟨hQ1, hS1, hP1, hIdB, hIdO⟩ := bucketFold_spec w (s.bucket w) s hinv.cpre hmemB
  set s1 := (s.bucket w).foldl (bucketStep w) s with hs1
  have hlow1 : ∀ j, j < w → s1.semi j = j := by
    intro j hj
    rw [hS1]
    exact hinv.semiLow j (by omega)
  obtain ⟨hQ2, hP2, hId2, hSo2, hSw2, hSe2⟩ := semiFold_spec w (s1.preds w) s1 hP1 hlow1
  set s2 := (s1.preds w).foldl (semiStep w) s1 with hs2
  -- accumulated field equations
  have hsemO : ∀ j, j ≠ w → s2.semi j = s.semi j := by
    intro j hj
    rw [hSo2 j hj]
    exact congrFun hS1 j
  have hsemW : s2.semi w ≤ w := by
    have h1 : s1.semi w = s.semi w := congrFun hS1 w
    have h2 : s.semi w = w := hinv.semiLow w (Nat.le_refl w)
    omega
  have hvtx2 : s2.vertex = base.vertex := by rw [hQ2.vtx, hQ1.vtx, hinv.frameV]
  have hmap2 : s2.vertexIndex = base.vertexIndex := by rw [hQ2.vmap, hQ1.vmap, hinv.frameM]
  have hpar2 : s2.parent = base.parent := by rw [hQ2.par, hQ1.par, hinv.frameP]
  have hprd2 : s2.preds = base.preds := by rw [hQ2.prd, hQ1.prd, hinv.framePr]
  have hn2 : s2.n = base.n := by rw [hQ2.nn, hQ1.nn, hinv.frameN]
  have hbkt2 : s2.bucket = s.bucket := by rw [hQ2.bkt, hQ1.bkt]
  have hidm2 : s2.idom = s1.idom := hId2
  -- the final state of the iteration
  set s4 := ltLink w (ltAppend w s2) with hs4
  have h4semi : s4.semi = s2.semi := rfl
  have h4lab : s4.label = s2.label := rfl
  have h4idm : s4.idom = s2.idom := rfl
  have h4vtx : s4.vertex = s2.vertex := rfl
  have h4map : s4.vertexIndex = s2.vertexIndex := rfl
  have h4par : s4.parent = s2.parent := rfl
  have h4prd : s4.preds = s2.preds := rfl
  have h4n : s4.n = s2.n := rfl
  have h4anc : s4.ancestor = upd s2.ancestor w (s2.parent w) := rfl
  have h4bkt : s4.bucket = upd s2.bucket (s2.semi w) (s2.bucket (s2.semi w) ++ [w]) := rfl
  -- idom of the processed vertices
  have hidmDone : ∀ x, w < x → x < base.n → 1 ≤ x →
      (s.idom x < x → s4.idom x < x) ∧ (s.semi x = w → x ∈ s.bucket w → s4.idom x < x) := by
    intro x hxw hxn hx1
    constructor
    · intro hold
      rw [h4idm, hidm2]
      by_cases hxb : x ∈ s.bucket w
      · exact hIdB x hxb
      · rw [hIdO x hxb]
        exact hold
    · intro hsx hxb
      rw [h4idm, hidm2]
      exact hIdB x hxb
  constructor
  · -- 1 ≤ w: the invariant for w - 1
    intro hw1
    -- semi[w] drops below w thanks to the dfs-tree parent edge
    have hparm : base.parent w ∈ s1.preds w := by
      rw [hQ1.prd, hinv.framePr]
      exact hbase.parPred w hw1 (by omega)
    have hparlt : base.parent w < w := hbase.parLt w hw1 (by omega)
    have hsemWlt : s2.semi w ≤ base.parent w := hSe2 (base.parent w) hparm hparlt
    refine
      { frameV := by rw [h4vtx, hvtx2]
        frameM := by rw [h4map, hmap2]
        frameP := by rw [h4par, hpar2]
        framePr := by rw [h4prd, hprd2]
        frameN := by rw [h4n, hn2]
        semiLow := ?_
        semiHi := ?_
        cpre := ?_
        bkt := ?_
        idm := ?_ }
    · intro j hj
      rw [h4semi, hsemO j (by omega)]
      exact hinv.semiLow j (by omega)
    · intro j hj hjn
      by_cases hjw : j = w
      · subst hjw
        rw [h4semi]
        omega
      · rw [h4semi, hsemO j hjw]
        exact hinv.semiHi j (by omega) hjn
    · refine
        { labelLe := ?_
          ancLow := ?_
          ancLt := ?_ }
      · intro j
        rw [h4lab]
        exact hP2.labelLe j
      · intro j hj
        rw [h4anc, upd_other _ _ _ _ (by omega)]
        exact hP2.ancLow j (by omega)
      · intro j
        rw [h4anc]
        by_cases hjw : j = w
        · subst hjw
          rw [upd_self, hpar2]
          exact Or.inr hparlt
        · rw [upd_other _ _ _ _ hjw]
          exact hP2.ancLt j
    · intro j x hx
      rw [h4bkt] at hx
      rw [h4semi]
      by_cases hjw : j = s2.semi w
      · subst hjw
        rw [upd_self] at hx
        rw [hbkt2] at hx
        rcases List.mem_append.mp hx with hx | hx
        · obtain ⟨a, b, c, d⟩ := hinv.bkt _ x hx
          exact ⟨a, b, by omega, by rw [hsemO x (by omega)]; exact d⟩
        · have hxw : x = w := by simpa using hx
          subst hxw
          exact ⟨hw1, by omega, by omega, rfl⟩
      · rw [upd_other _ _ _ _ hjw, hbkt2] at hx
        obtain ⟨a, b, c, d⟩ := hinv.bkt _ x hx
        exact ⟨a, b, by omega, by rw [hsemO x (by omega)]; exact d⟩
    · intro x hx1 hxn hxw
      by_cases hxw2 : x = w
      · subst hxw2
        right
        constructor
        · rw [h4semi]; omega
        · rw [h4semi, h4bkt, upd_self]
          exact List.mem_append.mpr (Or.inr (by simp))
      · have hxgt : w < x := by omega
        rcases hinv.idm x hx1 hxn hxgt with hold | ⟨hsx, hxb⟩
        · exact Or.inl ((hidmDone x hxgt hxn hx1).1 hold)
        · by_cases hsw : s.semi x = w
          · exact Or.inl ((hidmDone x hxgt hxn hx1).2 hsw (hsw ▸ hxb))
          · right
            have hsxlt : s.semi x < w := by omega
            constructor
            · rw [h4semi, hsemO x (by omega)]
              omega
            · rw [h4semi, hsemO x (by omega), h4bkt]
              by_cases hjw : s.semi x = s2.semi w
              · rw [hjw, upd_self, hbkt2]
                exact List.mem_append.mpr (Or.inl (hjw ▸ hxb))
              · rw [upd_other _ _ _ _ hjw, hbkt2]
                exact hxb
  · -- w = 0: the post-loop statement
    intro hw0
    subst hw0
    refine
      { frameV := by rw [h4vtx, hvtx2]
        frameM := by rw [h4map, hmap2]
        frameN := by rw [h4n, hn2]
        idm := ?_ }
    intro x hx1 hxn
    have hxgt : (0 : Nat) < x := by omega
    rcases hinv.idm x hx1 hxn hxgt with hold | ⟨hsx, hxb⟩
    · exact (hidmDone x hxgt hxn hx1).1 hold
    · have hsx0 : s.semi x = 0 := by omega
      exact (hidmDone x hxgt hxn hx1).2 hsx0 (hsx0 ▸ hxb)

theorem initState_inv (n : Nat) (succ : Nat → List Nat) : DfsInv (initState n succ) [] :=
  { semiLt := fun j hj => absurd hj (Nat.not_lt_zero j)
    labelLt := fun j hj => absurd hj (Nat.not_lt_zero j)
    labelGe := fun _ _ => rfl
    semiGe := fun _ _ => rfl
    parLt := fun j _ hj => absurd hj (Nat.not_lt_zero j)
    parZero := rfl
    parPred := fun j _ hj => absurd hj (Nat.not_lt_zero j)
    mapLt := fun _ j h => Option.noConfusion h
    mapVtx := fun j hj => absurd hj (Nat.not_lt_zero j)
    visVtx := fun j hj => absurd hj (Nat.not_lt_zero j)
    predLt := fun j p hp => absurd hp (List.not_mem_nil p)
    visMap := fun v h => Bool.noConfusion h }

theorem dfsVisit_unfold_fresh (fuel : Nat) (v : Nat) (s : LTState)
    (hv : s.visited v = false) :
    dfsVisit (fuel + 1) v s = dfsSuccs (dfsVisit fuel) v (s.succ v) (dfsAssign v s) := by
  simp [dfsVisit, hv]

/-- What a completed dfs phase (`dfIdx = n`) guarantees: the `PostDfs`
facts, the entry mapped to index `0`, and `n ≥ 1`. -/
theorem dfsPhase_post (entry n : Nat) (succ : Nat → List Nat)
    (hc : (dfsPhase entry n succ).dfIdx = n) :
    PostDfs n (dfsPhase entry n succ) ∧
    (dfsPhase entry n succ).vertexIndex entry = some 0 ∧ 1 ≤ n := by
  have hfresh : (initState n succ).visited entry = false := rfl
  have hunfold : dfsPhase entry n succ =
      dfsSuccs (dfsVisit n) entry ((initState n succ).succ entry)
        (dfsAssign entry (initState n succ)) := by
    unfold dfsPhase
    exact dfsVisit_unfold_fresh n entry (initState n succ) hfresh
  have haInv : DfsInv (dfsAssign entry (initState n succ)) [0] := by
    have := dfsAssign_inv entry (initState n succ) [] (initState_inv n succ) hfresh (Or.inl rfl)
    exact this
  have havis : (dfsAssign entry (initState n succ)).visited entry = true := by
    show upd (initState n succ).visited entry true entry = true
    rw [upd_self]
  have hamap : (dfsAssign entry (initState n succ)).vertexIndex entry = some 0 := by
    show upd (initState n succ).vertexIndex entry (some 0) entry = some 0
    rw [upd_self]
  have had : (dfsAssign entry (initState n succ)).dfIdx = 1 := rfl
  obtain ⟨hInv, hFr⟩ := dfsSuccsAux (dfsVisit n) (dfsVisitSpec n) entry
    ((initState n succ).succ entry) (dfsAssign entry (initState n succ)) [0]
    haInv havis (by omega)
  rw [← hunfold] at hInv hFr
  set s0 := dfsPhase entry n succ
  have h1n : 1 ≤ n := by
    have := hFr.mono
    rw [had, hc] at this
    exact this
  have hent : s0.vertexIndex entry = some 0 := by
    rw [hFr.vmap entry havis]
    exact hamap
  refine ⟨?_, hent, h1n⟩
  refine
    { hn := by rw [hFr.nn]; rfl
      hdf := hc
      semiId := fun j hj => hInv.semiLt j (by omega)
      labelId := fun j hj => hInv.labelLt j (by omega)
      labelGe := fun j hj => hInv.labelGe j (by omega)
      parLt := fun j h1 hj => hInv.parLt j h1 (by omega)
      parZero := hInv.parZero
      parPred := fun j h1 hj => hInv.parPred j h1 (by omega) (by simp; omega)
      mapLt := fun v j h => by have := hInv.mapLt v j h; omega
      mapVtx := fun j hj => hInv.mapVtx j (by omega)
      predLt := fun j p hp => by have := hInv.predLt j p hp; omega
      ancU := ?_
      bktE := ?_
      idomU := ?_ }
  · intro j
    rw [hFr.anc]
    rfl
  · intro j
    rw [hFr.bkt]
    rfl
  · intro j
    rw [hFr.idm]
    rfl

theorem ltLoopGo (base : LTState) (n : Nat) (hbase : PostDfs n base) :
    ∀ w, w < n → ∀ s, LoopInv base w s →
      PostLoop base (((List.range (w + 1)).reverse).foldl ltIterSlot s) := by
  intro w
  induction w with
  | zero =>
    intro hw s hinv
    have h0 : (List.range 1).reverse = [0] := rfl
    rw [h0, List.foldl_cons, List.foldl_nil]
    exact (ltIterSlot_spec base n hbase 0 hw s hinv).2 rfl
  | succ w ih =>
    intro hw s hinv
    have hr : (List.range (w + 2)).reverse = (w + 1) :: (List.range (w + 1)).reverse := by
      rw [List.range_succ, List.reverse_append]
      rfl
    rw [hr, List.foldl_cons]
    have hstep := (ltIterSlot_spec base n hbase (w + 1) hw s hinv).1 (by omega)
    exact ih (by omega) _ hstep

/-- Composition of the whole reverse loop, starting from the dfs output
state. -/
theorem ltLoop_post (base : LTState) (n : Nat) (hbase : PostDfs n base) (h1 : 1 ≤ n) :
    PostLoop base (ltLoop base) := by
  obtain ⟨m, hm⟩ : ∃ m, n = m + 1 := ⟨n - 1, by omega⟩
  subst hm
  unfold ltLoop
  rw [hbase.hn]
  apply ltLoopGo base (m + 1) hbase m (by omega)
  refine
    { frameV := rfl
      frameM := rfl
      frameP := rfl
      framePr := rfl
      frameN := rfl
      semiLow := fun j hj => hbase.semiId j (by omega)
      semiHi := fun j hj hjn => by rw [hbase.hn] at hjn; omega
      cpre := ?_
      bkt := fun j x hx => by rw [hbase.bktE j] at hx; simp at hx
      idm := fun x h1x hxn hxm => by rw [hbase.hn] at hxn; omega }
  refine
    { labelLe := ?_
      ancLow := fun j _ => hbase.ancU j
      ancLt := fun j => Or.inl (hbase.ancU j) }
  intro j
  rcases Nat.lt_or_ge j (m + 1) with hj | hj
  · rw [hbase.labelId j hj]
  · rw [hbase.labelGe j hj]
    omega

theorem step4Iter_eq (s : LTState) (i : Nat) (h : s.vertexIndex (s.vertex i) = some i) :
    step4Iter s i =
      if s.idom i ≠ s.semi i then { s with idom := upd s.idom i (s.idom (s.idom i)) }
      else s := by
  unfold step4Iter
  rw [mapGetOrInsert_some _ _ _ h]

theorem step4Iter_spec (base : LTState) (n : Nat) (hbase : PostDfs n base)
    (s : LTState) (i : Nat) (hi1 : 1 ≤ i) (hin : i < n)
    (hV : s.vertex = base.vertex) (hM : s.vertexIndex = base.vertexIndex)
    (hN : s.n = base.n) (hz : s.idom 0 = 0) (hlt : ∀ x, 1 ≤ x → x < n → s.idom x < x) :
    (step4Iter s i).vertex = base.vertex ∧ (step4Iter s i).vertexIndex = base.vertexIndex ∧
    (step4Iter s i).n = base.n ∧ (step4Iter s i).idom 0 = 0 ∧
    (∀ x, 1 ≤ x → x < n → (step4Iter s i).idom x < x) := by
  have hmap : s.vertexIndex (s.vertex i) = some i := by
    rw [hM, hV]
    exact hbase.mapVtx i hin
  rw [step4Iter_eq s i hmap]
  by_cases hcond : s.idom i ≠ s.semi i
  · rw [if_pos hcond]
    refine ⟨hV, hM, hN, ?_, ?_⟩
    · show upd s.idom i (s.idom (s.idom i)) 0 = 0
      rw [upd_other _ _ _ _ (by omega)]
      exact hz
    · intro x hx1 hxn
      show upd s.idom i (s.idom (s.idom i)) x < x
      by_cases hxi : x = i
      · subst hxi
        rw [upd_self]
        have hd : s.idom x < x := hlt x hx1 hxn
        rcases Nat.eq_zero_or_pos (s.idom x) with h0 | hpos
        · rw [h0, hz]
          omega
        · have := hlt (s.idom x) hpos (by omega)
          omega
      · rw [upd_other _ _ _ _ hxi]
        exact hlt x hx1 hxn
  · rw [if_neg hcond]
    exact ⟨hV, hM, hN, hz, hlt⟩

theorem step4Fold (base : LTState) (n : Nat) (hbase : PostDfs n base) :
    ∀ (lst : List Nat), (∀ i ∈ lst, 1 ≤ i ∧ i < n) → ∀ s,
      s.vertex = base.vertex → s.vertexIndex = base.vertexIndex → s.n = base.n →
      s.idom 0 = 0 → (∀ x, 1 ≤ x → x < n → s.idom x < x) →
      (lst.foldl step4Iter s).vertex = base.vertex ∧
      (lst.foldl step4Iter s).vertexIndex = base.vertexIndex ∧
      (lst.foldl step4Iter s).n = base.n ∧
      (lst.foldl step4Iter s).idom 0 = 0 ∧
      (∀ x, 1 ≤ x → x < n → (lst.foldl step4Iter s).idom x < x) := by
  intro lst
  induction lst with
  | nil =>
    intro _ s hV hM hN hz hlt
    exact ⟨hV, hM, hN, hz, hlt⟩
  | cons i is ih =>
    intro hmem s hV hM hN hz hlt
    obtain ⟨hi1, hin⟩ := hmem i (List.mem_cons_self i is)
    obtain ⟨hV1, hM1, hN1, hz1, hlt1⟩ := step4Iter_spec base n hbase s i hi1 hin hV hM hN hz hlt
    rw [List.foldl_cons]
    exact ih (fun j hj => hmem j (List.mem_cons_of_mem i hj)) (step4Iter s i) hV1 hM1 hN1 hz1 hlt1

theorem mem_range_drop (n : Nat) : ∀ i ∈ (List.range n).drop 1, 1 ≤ i ∧ i < n := by
  cases n with
  | zero =>
    intro i hi
    simp [List.range_zero] at hi
  | succ m =>
    intro i hi
    rw [List.range_succ_eq_map] at hi
    have hi2 : i ∈ List.map Nat.succ (List.range m) := hi
    obtain ⟨a, ha, rfl⟩ := List.mem_map.mp hi2
    have := List.mem_range.mp ha
    omega

/-- Step 4 preserves the frames and turns the loop's `idom` facts into
the final immediate-dominator array facts. -/
theorem step4_spec (base : LTState) (n : Nat) (hbase : PostDfs n base) (s : LTState)
    (hpl : PostLoop base s) :
    (step4 s).vertex = base.vertex ∧ (step4 s).vertexIndex = base.vertexIndex ∧
    (step4 s).n = base.n ∧ (step4 s).idom 0 = 0 ∧
    (∀ x, 1 ≤ x → x < n → (step4 s).idom x < x) := by
  unfold step4
  have hsn : s.n = n := by rw [hpl.frameN, hbase.hn]
  rw [hsn]
  apply step4Fold base n hbase ((List.range n).drop 1) (mem_range_drop n)
  · exact hpl.frameV
  · exact hpl.frameM
  · show n = base.n
    exact hbase.hn.symm
  · show upd s.idom 0 0 0 = 0
    rw [upd_self]
  · intro x hx1 hxn
    show upd s.idom 0 0 x < x
    rw [upd_other _ _ _ _ (by omega)]
    exact hpl.idm x hx1 (by rw [hbase.hn]; exact hxn)

/-- The master validity lemma: if the dfs phase assigns exactly
`numVertices` indices (i.e. `numVertices` equals the number of reachable
vertices), the constructed analyzer's tables satisfy the structural
facts used by the quantified claims. -/
theorem mkDominator_valid (entry n : Nat) (succ : Nat → List Nat)
    (hc : (dfsPhase entry n succ).dfIdx = n) :
    (mkDominator entry n succ).n = n ∧
    (mkDominator entry n succ).vertexIndex entry = some 0 ∧
    (∀ v i, (mkDominator entry n succ).vertexIndex v = some i → i < n) ∧
    (mkDominator entry n succ).idom 0 = 0 ∧
    (∀ i, i < n → 1 ≤ i → (mkDominator entry n succ).idom i < i) := by
  obtain ⟨hpost, hent, h1n⟩ := dfsPhase_post entry n succ hc
  have hpl : PostLoop (dfsPhase entry n succ) (ltLoop (dfsPhase entry n succ)) :=
    ltLoop_post (dfsPhase entry n succ) n hpost h1n
  obtain ⟨hV, hM, hN, hz, hlt⟩ :=
    step4_spec (dfsPhase entry n succ) n hpost (ltLoop (dfsPhase entry n succ)) hpl
  have hdm : (mkDominator entry n succ).vertexIndex =
      (step4 (ltLoop (dfsPhase entry n succ))).vertexIndex := rfl
  have hdi : (mkDominator entry n succ).idom =
      (step4 (ltLoop (dfsPhase entry n succ))).idom := rfl
  have hdn : (mkDominator entry n succ).n =
      (step4 (ltLoop (dfsPhase entry n succ))).n := rfl
  refine ⟨?_, ?_, ?_, ?_, ?_⟩
  · rw [hdn, hN, hpost.hn]
  · rw [hdm, hM]
    exact hent
  · intro v i hv
    rw [hdm, hM] at hv
    exact hpost.mapLt v i hv
  · rw [hdi]
    exact hz
  · intro i hin hi1
    rw [hdi]
    exact hlt i hi1 hin

theorem domWalk_entry (idomA : Nat → Nat) (n : Nat) (h0 : idomA 0 = 0)
    (hdec : ∀ j, j < n → 1 ≤ j → idomA j < j) :
    ∀ fuel cur, cur < n → cur < fuel → domWalk idomA 0 fuel cur = true := by
  intro fuel
  induction fuel with
  | zero =>
    intro cur h1 h2
    omega
  | succ f ih =>
    intro cur hcn hcf
    by_cases hc0 : cur = 0
    · subst hc0
      rw [domWalk]
      simp
    · rw [domWalk]
      simp only [if_neg hc0]
      have hlt : idomA cur < cur := hdec cur hcn (by omega)
      exact ih (idomA cur) (by omega) (by omega)

/-- Claim C9: for every input graph whose dfs reaches exactly
`numVertices` vertices, the final immediate-dominator array satisfies
`idom[0] = 0` and `idom[i] < i` for every `i` in `[1, n)`: the immediate
dominator is always earlier in dfs order. -/
theorem claim_C9 (entry n : Nat) (succ : Nat → List Nat)
    (hc : (dfsPhase entry n succ).dfIdx = n) :
    (mkDominator entry n succ).idom 0 = 0 ∧
    ∀ i, i < n → 1 ≤ i → (mkDominator entry n succ).idom i < i := by
  obtain ⟨_, _, _, hz, hdec⟩ := mkDominator_valid entry n succ hc
  exact ⟨hz, hdec⟩

/-- Witness for `claim_C9` on the chain graph. -/
theorem claim_C9_witness :
    (dfsPhase 0 4 chainSucc).dfIdx = 4 ∧
    ((mkDominator 0 4 chainSucc).idom 0 = 0 ∧
      ∀ i, i < 4 → 1 ≤ i → (mkDominator 0 4 chainSucc).idom i < i) :=
  ⟨by decide, claim_C9 0 4 chainSucc (by decide)⟩

/-- Claim C10: for every input graph whose dfs reaches exactly
`numVertices` vertices and every vertex `v` present in `vertexIndex`,
`dominates(entry, v)` returns `true`. -/
theorem claim_C10 (entry n : Nat) (succ : Nat → List Nat)
    (hc : (dfsPhase entry n succ).dfIdx = n)
    (v i : Nat) (hv : (mkDominator entry n succ).vertexIndex v = some i) :
    (dominates (mkDominator entry n succ) entry v).1 = true := by
  obtain ⟨hdn, hent, hmapLt, hz, hdec⟩ := mkDominator_valid entry n succ hc
  unfold dominates
  simp only [domGetOrInsert_eq (mkDominator entry n succ) entry 0 hent,
    domGetOrInsert_eq (mkDominator entry n succ) v i hv]
  by_cases h0i : (0 : Nat) = i
  · rw [if_pos h0i]
  · rw [if_neg h0i]
    dsimp only
    have hin : i < n := hmapLt v i hv
    have hcur : (mkDominator entry n succ).idom i < i := hdec i hin (by omega)
    rw [hdn]
    exact domWalk_entry (mkDominator entry n succ).idom n hz hdec (n + 1)
      ((mkDominator entry n succ).idom i) (by omega) (by omega)

/-- Witness for `claim_C10` on the chain graph at vertex `3`. -/
theorem claim_C10_witness :
    ((dfsPhase 0 4 chainSucc).dfIdx = 4 ∧
      (mkDominator 0 4 chainSucc).vertexIndex 3 = some 3) ∧
    (dominates (mkDominator 0 4 chainSucc) 0 3).1 = true :=
  ⟨⟨by decide, by decide⟩, claim_C10 0 4 chainSucc (by decide) 3 3 (by decide)⟩
